import Mathlib

/-!
# Verification of the vmemcache index (critnib) and replacement policy

Shallow embedding of `critnib.c` (the critbit/critnib index) and
`vmemcache_repl.c` (the replacement policies) of the vmemcache repository.

Keys are byte strings, modelled as `List Nat` with every byte below 256.
The C code reads key bytes through plain `char`, which is signed on the
target: `slice_index` promotes the byte with sign extension before the
arithmetic shift, and the `(uint32_t)` cast of the XORed `char`s in
`critnib_set` sign-extends, so two bytes differing at the top bit give a
divergence offset of 28 (`util_mssb_index` sees bit 31).  Both are
modelled explicitly (`sx32`, `asr32`).
Heap pointers become inductive constructors: a NULL child pointer is
`CNode.empty`, a tagged leaf pointer is `CNode.leaf`, an internal node is
`CNode.node` with its 16-slot child array as a function `Fin 16 → CNode`.
Allocation outcomes are passed in as explicit booleans (`true` = malloc
succeeds).  Return codes keep their errno values; a failed internal
assertion (`ASSERT` in the C source) is modelled by the distinct code
`EASSERT`, which is proved unreachable from well-formed states.
-/

namespace Vmemcache

namespace Critnib

/-- Keys are byte strings (`const char *` plus `byten_t key_len`). -/
abbrev Key := List Nat

/-- `errno` value returned by `critnib_set` on allocation failure. -/
def ENOMEM : Nat := 12

/-- `errno` value returned by `critnib_set` for an already-present key. -/
def EEXIST : Nat := 17

/-- Sentinel for a failed `ASSERT` in the C source (the process aborts);
proved unreachable from well-formed tries. -/
def EASSERT : Nat := 134

/-- A trie position.  `empty` is a NULL pointer, `leaf` a tagged
`struct critnib_leaf` (key bytes, value), `node` a `struct critnib_node`
with its `child[SLNODES]` array (`SLNODES = 16`), `byte` and `bit` fields. -/
inductive CNode where
  | empty : CNode
  | leaf (key : Key) (value : Nat) : CNode
  | node (child : Fin 16 → CNode) (byte : Nat) (bit : Nat) : CNode

/-- `is_leaf` -- check tagged pointer for leafness. -/
def isLeaf : CNode → Bool
  | .leaf _ _ => true
  | _ => false

/-- NULL test on a child pointer. -/
def isEmpty : CNode → Bool
  | .empty => true
  | _ => false

/-- `(uint32_t)` applied to a (signed) `char` holding byte value `b`:
truncate to 8 bits, then sign-extend to 32 bits — on the target plain
`char` is signed, so bytes 128..255 become `0xFFFFFF80..0xFFFFFFFF`. -/
def sx32 (b : Nat) : Nat :=
  if b % 256 < 128 then b % 256 else b % 256 + 4294967040

/-- Arithmetic right shift of a 32-bit signed value given as its unsigned
bit pattern: a negative value (top bit set) shifts in ones. -/
def asr32 (u bit : Nat) : Nat :=
  if u < 2147483648 then u >>> bit
  else (u + (2 ^ (32 + bit) - 4294967296)) >>> bit

/-- `slice_index(b, bit) = (b >> bit) & NIB` with `NIB = 15`; the `char`
argument is promoted to `int` (sign-extending bytes with the top bit set)
before the arithmetic shift. -/
def sliceIndex (b bit : Nat) : Nat := asr32 (sx32 b) bit &&& 15

/-- `slice_index` as an index into the 16-slot child array. -/
def sliceFin (b bit : Nat) : Fin 16 :=
  ⟨sliceIndex b bit, by unfold sliceIndex; exact Nat.lt_succ_of_le Nat.and_le_right⟩

/-- `any_leaf` -- find any leaf in a subtree: return the first non-NULL
child if it is a leaf, else recurse into it; NULL if all slots are NULL. -/
def any_leaf : CNode → CNode
  | .node ch _ _ =>
    match (List.finRange 16).find? (fun i => !isEmpty (ch i)) with
    | some i => if isLeaf (ch i) then ch i else any_leaf (ch i)
    | none => .empty
  | _ => .empty

/-- The first descent of `critnib_set`: from the root, while the current
node is internal and its `byte` is below the key length, step into the
child selected by the key's nibble, falling back to `any_leaf` when that
child is NULL or the node's `byte` is not below the key length. -/
def findLeaf (key : Key) : CNode → CNode
  | .node ch b t =>
    if b < key.length then
      if isEmpty (ch (sliceFin (key.getD b 0) t)) then any_leaf (.node ch b t)
      else findLeaf key (ch (sliceFin (key.getD b 0) t))
    else any_leaf (.node ch b t)
  | n => n

/-- The `diff` loop of `critnib_set`: index of the first differing byte,
or the common length when one key is a prefix of the other. -/
def firstDiff : Key → Key → Nat
  | a :: as, b :: bs => if a = b then firstDiff as bs + 1 else 0
  | _, _ => 0

/-- Fuel-driven binary logarithm, structurally recursive so that it
computes inside the kernel. -/
def mssbAux : Nat → Nat → Nat
  | _, 0 => 0
  | 0, _ => 0
  | fuel+1, n => if 2 ≤ n then mssbAux fuel (n / 2) + 1 else 0

/-- Modelled from the spec: `util_mssb_index` (from `util.h`, which is not
part of the sources) returns the 0-based index of the most significant
set bit of a nonzero value. -/
def util_mssb_index (x : Nat) : Nat := mssbAux x x

/-- The second descent of `critnib_set`: follow children whose
`(byte, bit)` discriminator is not past `(diff, sh)`, then either install
the new leaf in an empty slot or split the edge with a fresh internal
node (whose allocation succeeds iff `nodeOk`). -/
def insertAt (key : Key) (v : Nat) (diff sh nkByte : Nat) (nodeOk : Bool) :
    CNode → Nat × CNode
  | .node ch b t =>
    if b < diff ∨ (b = diff ∧ sh ≤ t) then
      let i := sliceFin (key.getD b 0) t
      let r := insertAt key v diff sh nkByte nodeOk (ch i)
      (r.1, .node (Function.update ch i r.2) b t)
    else
      if nodeOk then
        (0, .node
          (Function.update
            (Function.update (fun _ => CNode.empty)
              (sliceFin nkByte sh) (.node ch b t))
            (sliceFin (key.getD diff 0) sh) (.leaf key v))
          diff sh)
      else (ENOMEM, .node ch b t)
  | .empty => (0, .leaf key v)
  | .leaf k0 v0 =>
    if nodeOk then
      (0, .node
        (Function.update
          (Function.update (fun _ => CNode.empty)
            (sliceFin nkByte sh) (.leaf k0 v0))
          (sliceFin (key.getD diff 0) sh) (.leaf key v))
        diff sh)
    else (ENOMEM, .leaf k0 v0)

/-- `critnib_set` -- insert a new entry.  `leafOk` and `nodeOk` are the
outcomes of the leaf / internal-node allocations. -/
def critnib_set (c : CNode) (key : Key) (v : Nat) (leafOk nodeOk : Bool) :
    Nat × CNode :=
  if leafOk = false then (ENOMEM, c)
  else if isEmpty c then (0, .leaf key v)
  else
    match findLeaf key c with
    | .leaf nk _ =>
      if min nk.length key.length ≤ firstDiff nk key then (EEXIST, c)
      else
        insertAt key v (firstDiff nk key)
          (util_mssb_index
            (sx32 ((nk.getD (firstDiff nk key) 0) ^^^ (key.getD (firstDiff nk key) 0))) &&& 252)
          (nk.getD (firstDiff nk key) 0) nodeOk c
    | _ => (EASSERT, c)

/-- `critnib_get` -- query a key. -/
def critnib_get (c : CNode) (key : Key) : Option Nat :=
  match c with
  | .empty => none
  | .leaf k v => if key = k then some v else none
  | .node ch b t =>
    if key.length ≤ b then none
    else critnib_get (ch (sliceFin (key.getD b 0) t)) key

/-- The non-NULL children of a node, in slot order (used by the
single-child check of `critnib_remove`). -/
def liveChildren (ch : Fin 16 → CNode) : List CNode :=
  (List.finRange 16).filterMap
    (fun i => if isEmpty (ch i) then none else some (ch i))

/-- `critnib_remove` -- query and delete a key, shortening the edge when
the parent of the removed leaf is left with a single child. -/
def critnib_remove (c : CNode) (key : Key) : Option Nat × CNode :=
  match c with
  | .empty => (none, .empty)
  | .leaf k v => if key = k then (some v, .empty) else (none, .leaf k v)
  | .node ch b t =>
    if key.length ≤ b then (none, .node ch b t)
    else
      let i := sliceFin (key.getD b 0) t
      match ch i with
      | .empty => (none, .node ch b t)
      | .leaf k v =>
        if key = k then
          let ch' := Function.update ch i CNode.empty
          match liveChildren ch' with
          | [c'] => (some v, c')
          | _ => (some v, .node ch' b t)
        else (none, .node ch b t)
      | .node _ _ _ =>
        let r := critnib_remove (ch i) key
        (r.1, .node (Function.update ch i r.2) b t)

/-- The (key, value) pairs stored at the leaves, in slot order. -/
def leaves : CNode → List (Key × Nat)
  | .empty => []
  | .leaf k v => [(k, v)]
  | .node ch _ _ =>
    (List.finRange 16).foldr (fun i acc => leaves (ch i) ++ acc) []

/-- The slice string of a key: for each byte, the three discriminators an
internal node can apply to it, in descent order — the sign slice
(`bit = 28`: 0 for bytes below 128, 15 for bytes with the top bit set),
the high nibble (`bit = 4`) and the low nibble (`bit = 0`).  Positions
are thus ordered the way the trie discriminates them (byte ascending,
bit descending within a byte). -/
def nibs : Key → List Nat
  | [] => []
  | c :: k => (if c < 128 then 0 else 15) :: (c >>> 4) :: (c &&& 15) :: nibs k

/-- Slice-string index of the trie position `(byte b, bit t)` for
`t ∈ {0, 4, 28}`: the sign slice (`t = 28`) of byte `b` sits at `3*b`,
the high nibble (`t = 4`) at `3*b + 1`, the low nibble (`t = 0`) at
`3*b + 2`. -/
def posOf (b t : Nat) : Nat :=
  3 * b + (if t = 28 then 0 else if t = 4 then 1 else 2)

/-- The nibble of key `k` at nibble position `p` (0 for out of range). -/
def nibAt (k : Key) (p : Nat) : Nat := (nibs k).getD p 0

/-- Well-formedness of a trie, phrased over slice strings:
leaf keys are byte strings (each byte < 256); every internal node has
`bit ∈ {0, 4, 28}` (28 arises when two keys first differ at a byte's top
bit, through the sign-extending `(uint32_t)` cast), at least two
non-NULL children, well-formed subtrees, children keyed by their slice
at the node's position, and all keys in the subtree agreeing on every
slice position strictly before the node's. -/
def WFb : CNode → Bool
  | .empty => true
  | .leaf k _ => k.all (fun c => decide (c < 256))
  | .node ch b t =>
    (decide (t = 0) || decide (t = 4) || decide (t = 28)) &&
    decide (2 ≤ (liveChildren ch).length) &&
    (List.finRange 16).all (fun i => WFb (ch i)) &&
    (List.finRange 16).all (fun i =>
      (leaves (ch i)).all (fun q =>
        decide (posOf b t < (nibs q.1).length) &&
        decide (nibAt q.1 (posOf b t) = i.val))) &&
    (leaves (.node ch b t)).all (fun q1 =>
      (leaves (.node ch b t)).all (fun q2 =>
        decide ((nibs q1.1).take (posOf b t) = (nibs q2.1).take (posOf b t))))

/-- Every internal node reachable from the root has at least two
non-NULL children. -/
def twoChildren : CNode → Bool
  | .node ch _ _ =>
    decide (2 ≤ (liveChildren ch).length) &&
    (List.finRange 16).all (fun i => twoChildren (ch i))
  | _ => true

/-- The spec's claimed bit-field invariant: every internal node reachable
from the root has `bit = 0` or `bit = 4`.  This is refutable: inserting
two keys whose first differing byte differs at its top bit stores a node
with `bit = 28`. -/
def bits04 : CNode → Bool
  | .node ch _ t =>
    (decide (t = 0) || decide (t = 4)) &&
    (List.finRange 16).all (fun i => bits04 (ch i))
  | _ => true

/-- The bit-field invariant the code actually maintains: every internal
node reachable from the root has `bit = 0`, `bit = 4` or `bit = 28`. -/
def bits0428 : CNode → Bool
  | .node ch _ t =>
    (decide (t = 0) || decide (t = 4) || decide (t = 28)) &&
    (List.finRange 16).all (fun i => bits0428 (ch i))
  | _ => true

/-- A small well-formed two-leaf trie used as a concrete witness input:
keys 0x34 and 0x35 hang off a low-nibble discriminator at byte 0. -/
def sampleTrie : CNode :=
  .node (fun j => if j.val = 4 then .leaf [52] 1
    else if j.val = 5 then .leaf [53] 2 else .empty) 0 0

/-- A well-formed two-leaf trie whose root discriminates on the sign bit
(`bit = 28`): keys 0x00 and 0x80 differ only at byte 0's top bit. -/
def sampleTrie28 : CNode :=
  .node (fun j => if j.val = 0 then .leaf [0] 1
    else if j.val = 15 then .leaf [128] 2 else .empty) 0 28

/-- The trie built by inserting keys 0x00 and 0x80 into an empty index:
the signed-`char` XOR of the differing bytes sign-extends under the
`(uint32_t)` cast, so the split node is stored with `bit = 28`. -/
def trie28 : CNode :=
  (critnib_set (critnib_set .empty [0] 1 true true).2 [128] 2 true true).2

end Critnib

namespace Repl

/-- `struct repl_p_entry`: the policy node.  The TAILQ linkage lives in
`Head.first`; `data` is the opaque element pointer; `ptr_entry` is the
index of the caller's back-pointer slot this node zeroes on evict. -/
structure Entry where
  data : Nat
  ptr_entry : Nat
  was_used : Nat
  i_used : Nat
deriving DecidableEq, Repr

/-- `struct repl_p_head` plus the heap of entries and the caller-side
back-pointer slots.  Entries are heap objects, modelled as ids into
`entries`; `first` is the TAILQ from head (least recent) to tail;
`slots s` is the contents of back-pointer slot `s` (`*ptr_entry`);
`used`/`n_used`/`max_used` are the touched buffer. -/
structure Head where
  first : List Nat
  entries : Nat → Option Entry
  slots : Nat → Option Nat
  max_used : Nat
  n_used : Nat
  used : Nat → Option Nat
  next_id : Nat

/-- `repl_p_lru_new` -- fresh LRU policy head (capacity 256, all empty). -/
def repl_p_lru_new : Head :=
  { first := [], entries := fun _ => none, slots := fun _ => none,
    max_used := 256, n_used := 0, used := fun _ => none, next_id := 0 }

/-- `TAILQ_MOVE_TO_TAIL`: unlink `x` and relink it at the tail. -/
def moveToTail (l : List Nat) (x : Nat) : List Nat := l.erase x ++ [x]

/-- One iteration of the `clear_used_array` loop at used-array index `i`:
move the referenced node to the tail, reset its `was_used`, NULL the
slot. -/
def clearStep (h : Head) (i : Nat) : Head :=
  match h.used i with
  | some id =>
    { h with
      first := moveToTail h.first id,
      entries := Function.update h.entries id
        ((h.entries id).map fun e => { e with was_used := 0 }),
      used := Function.update h.used i none }
  | none => h

/-- `clear_used_array` -- fold every live touched-buffer slot
(indices `0 ≤ i < min n_used max_used`) back into the list tail, then
reset `n_used`. -/
def clear_used_array (h : Head) : Head :=
  let m := min h.n_used h.max_used
  let h' := (List.range m).foldl clearStep h
  { h' with n_used := 0 }

/-- `get_used_index` -- fetch-and-add on `n_used`; on overflow of the
touched buffer, drain it and fetch again. -/
def get_used_index (h : Head) : Head × Nat :=
  let index := h.n_used
  let h1 := { h with n_used := h.n_used + 1 }
  if h1.max_used - 1 < index then
    let h2 := if h1.max_used ≤ h1.n_used then clear_used_array h1 else h1
    ({ h2 with n_used := h2.n_used + 1 }, h2.n_used)
  else (h1, index)

/-- `repl_p_lru_insert` -- allocate a node for `element`, store its id in
back-pointer slot `s`, link it at the tail.  Returns the node id. -/
def repl_p_lru_insert (h : Head) (element : Nat) (s : Nat) :
    Head × Option Nat :=
  let id := h.next_id
  let e : Entry := { data := element, ptr_entry := s, was_used := 0, i_used := 0 }
  ({ h with
      entries := Function.update h.entries id (some e),
      slots := Function.update h.slots s (some id),
      first := h.first ++ [id],
      next_id := id + 1 }, some id)

/-- `repl_p_lru_use` -- touch the node held in back-pointer slot `s`:
no-op when the slot is NULL; otherwise, when `was_used` is 0, claim a
touched-buffer index and record the node there (`was_used` goes 0→1→2). -/
def repl_p_lru_use (h : Head) (s : Nat) : Head :=
  match h.slots s with
  | none => h
  | some id =>
    match h.entries id with
    | none => h
    | some e =>
      if e.was_used = 0 then
        let h1 := { h with
          entries := Function.update h.entries id (some { e with was_used := 1 }) }
        let p := get_used_index h1
        { p.1 with
          used := Function.update p.1.used p.2 (some id),
          entries := Function.update p.1.entries id
            ((p.1.entries id).map fun e' => { e' with i_used := p.2, was_used := 2 }) }
      else h

/-- `repl_p_lru_evict` -- targeted eviction when a back-pointer slot is
given (NULL slot ⇒ no-op returning NULL); otherwise drain the touched
buffer and evict the head of the list.  Unlinks the node, NULLs its
back-pointer slot, clears its touched-buffer slot when `was_used = 2`,
frees it and returns its data. -/
def repl_p_lru_evict (h : Head) (s : Option Nat) : Head × Option Nat :=
  let p : Head × Option Nat :=
    match s with
    | some s' => (h, h.slots s')
    | none =>
      let h' := if 0 < h.n_used then clear_used_array h else h
      (h', h'.first.head?)
  match p.2 with
  | none => (p.1, none)
  | some id =>
    match p.1.entries id with
    | none => (p.1, none)
    | some e =>
      ({ p.1 with
          first := p.1.first.erase id,
          slots := Function.update p.1.slots e.ptr_entry none,
          used := if e.was_used = 2
                  then Function.update p.1.used e.i_used none
                  else p.1.used,
          entries := Function.update p.1.entries id none },
       some e.data)

/-- The ids held in the touched buffer at drain time, in buffer order:
these are the nodes touched since the previous drain. -/
def touchedIds (h : Head) : List Nat :=
  (List.range (min h.n_used h.max_used)).filterMap h.used

/-- Spec scenario 4: attach A = 100, B = 101, C = 102 (slots 0, 1, 2). -/
def scenarioABC : Head :=
  (repl_p_lru_insert
    (repl_p_lru_insert (repl_p_lru_insert repl_p_lru_new 100 0).1 101 1).1
    102 2).1

def evict1 : Head × Option Nat := repl_p_lru_evict scenarioABC none

def evict2 : Head × Option Nat := repl_p_lru_evict evict1.1 none

def evict3 : Head × Option Nat := repl_p_lru_evict evict2.1 none

def evict4 : Head × Option Nat := repl_p_lru_evict evict3.1 none

/-- Attach A = 100, B = 101 (slots 0, 1) and touch B: used by the C2
witness. -/
def scenarioTouch : Head :=
  repl_p_lru_use
    (repl_p_lru_insert (repl_p_lru_insert repl_p_lru_new 100 0).1 101 1).1 1

end Repl

namespace Lock

/-- A mutex operation on the index mutex (`os_mutex_lock` /
`os_mutex_unlock` on `c->mutex`). -/
inductive MutexOp where
  | lock : MutexOp
  | unlock : MutexOp
deriving DecidableEq, Repr

/-- The control paths of `critnib_set` that reach a `return`. -/
inductive SetPath where
  | leafOom   : SetPath  -- leaf allocation fails, return ENOMEM
  | rootEmpty : SetPath  -- tree was empty, leaf installed at root
  | exist     : SetPath  -- byte-identical or prefix key found, EEXIST
  | placeNull : SetPath  -- divergence slot empty, leaf installed there
  | splitOom  : SetPath  -- node allocation for the split fails, ENOMEM
  | split     : SetPath  -- edge split with a fresh internal node

/-- The mutex operations `critnib_set` performs on `c->mutex`, in source
order, on each control path: an `os_mutex_unlock` at function entry
(line `os_mutex_unlock(&c->mutex)` before reading `c->root`), then one
more `os_mutex_unlock` before every `return` except the leaf-allocation
failure (which returns before touching the mutex) and the EEXIST path
(which returns without any further mutex call). -/
def critnib_set_mutexOps : SetPath → List MutexOp
  | .leafOom   => []
  | .rootEmpty => [.unlock, .unlock]
  | .exist     => [.unlock]
  | .placeNull => [.unlock, .unlock]
  | .splitOom  => [.unlock, .unlock]
  | .split     => [.unlock, .unlock]

/-- `critnib_get` performs exactly one mutex operation on every control
path: the `os_mutex_unlock` at function entry; none of its returns
performs another mutex call. -/
def critnib_get_mutexOps : List MutexOp := [.unlock]

/-- The control paths of `critnib_remove` that reach a `return`. -/
inductive RemovePath where
  | tooShort    : RemovePath  -- an internal node's byte reaches key_len
  | nullSlot    : RemovePath  -- descent ended in a NULL slot
  | keyMismatch : RemovePath  -- leaf found but keys differ
  | wasRoot     : RemovePath  -- removed leaf was the root
  | manyKids    : RemovePath  -- parent keeps ≥ 2 children
  | shortened   : RemovePath  -- parent collapsed into its single child

/-- The mutex operations `critnib_remove` performs on `c->mutex`, in
source order, on each control path: an `os_mutex_unlock` at entry and a
second `os_mutex_unlock` before every `return`. -/
def critnib_remove_mutexOps : RemovePath → List MutexOp
  | _ => [.unlock, .unlock]

end Lock

/-! ## Helper lemmas -/

namespace Critnib

theorem mem_foldr_append {α β : Type} (f : α → List β) (l : List α) (x : β) :
    (x ∈ l.foldr (fun i acc => f i ++ acc) []) ↔ ∃ i ∈ l, x ∈ f i := by
  induction l with
  | nil => simp
  | cons a l ih => simp [ih]

theorem mem_leaves_node {ch : Fin 16 → CNode} {b t : Nat} {p : Key × Nat} :
    p ∈ leaves (.node ch b t) ↔ ∃ i, p ∈ leaves (ch i) := by
  show p ∈ (List.finRange 16).foldr _ [] ↔ _
  rw [mem_foldr_append]
  constructor
  · rintro ⟨i, _, hp⟩; exact ⟨i, hp⟩
  · rintro ⟨i, hp⟩; exact ⟨i, List.mem_finRange i, hp⟩

theorem insertAt_nomem (key : Key) (v diff sh nkByte : Nat) (t : CNode)
    (h : (insertAt key v diff sh nkByte false t).1 = ENOMEM) :
    (insertAt key v diff sh nkByte false t).2 = t := by
  induction t with
  | empty => simp [insertAt, ENOMEM] at h
  | leaf k0 v0 => simp [insertAt]
  | node ch b t ih =>
    rw [insertAt] at h ⊢
    by_cases hc : b < diff ∨ (b = diff ∧ sh ≤ t)
    · simp only [if_pos hc] at h ⊢
      rw [ih _ h, Function.update_eq_self]
    · simp only [if_neg hc] at h ⊢
      simp

theorem set_nomem_ne_zero : ENOMEM ≠ 0 := by decide

theorem eq_false_of_not_true {b : Bool} (h : ¬ b = true) : b = false := by
  cases b
  · rfl
  · exact absurd rfl h

theorem shiftRight_xor (x y n : Nat) :
    (x ^^^ y) >>> n = (x >>> n) ^^^ (y >>> n) := by
  apply Nat.eq_of_testBit_eq
  intro i
  simp [Nat.testBit_shiftRight, Nat.testBit_xor]

theorem and_15_eq_mod (x : Nat) : x &&& 15 = x % 16 := by
  have := Nat.and_pow_two_sub_one_eq_mod x 4
  norm_num at this
  exact this

theorem sub_pow_0 : (2:Nat) ^ (32 + 0) - 4294967296 = 0 := by norm_num

theorem sub_pow_4 : (2:Nat) ^ (32 + 4) - 4294967296 = 64424509440 := by
  norm_num

theorem sub_pow_28 : (2:Nat) ^ (32 + 28) - 4294967296 = 1152921500311879680 := by
  norm_num

/-- `slice_index` at `bit = 0` reads the low nibble: the sign extension
only affects bits 8 and above. -/
theorem sliceIndex_0 {x : Nat} (hx : x < 256) : sliceIndex x 0 = x &&& 15 := by
  unfold sliceIndex sx32 asr32
  rw [Nat.mod_eq_of_lt hx, and_15_eq_mod, and_15_eq_mod]
  by_cases h : x < 128
  · rw [if_pos h, if_pos (show x < 2147483648 by omega), Nat.shiftRight_zero]
  · rw [if_neg h, if_neg (show ¬ x + 4294967040 < 2147483648 by omega),
      sub_pow_0, Nat.add_zero, Nat.shiftRight_zero]
    omega

/-- `slice_index` at `bit = 4` reads the high nibble: the sign extension
only affects bits 8 and above. -/
theorem sliceIndex_4 {x : Nat} (hx : x < 256) :
    sliceIndex x 4 = (x >>> 4) &&& 15 := by
  unfold sliceIndex sx32 asr32
  rw [Nat.mod_eq_of_lt hx, and_15_eq_mod, and_15_eq_mod,
    Nat.shiftRight_eq_div_pow]
  by_cases h : x < 128
  · rw [if_pos h, if_pos (show x < 2147483648 by omega),
      Nat.shiftRight_eq_div_pow]
  · rw [if_neg h, if_neg (show ¬ x + 4294967040 < 2147483648 by omega),
      sub_pow_4, Nat.shiftRight_eq_div_pow]
    omega

/-- `slice_index` at `bit = 28` reads the sign fill: 0 for bytes below
128, 15 for bytes with the top bit set. -/
theorem sliceIndex_28 {x : Nat} (hx : x < 256) :
    sliceIndex x 28 = if x < 128 then 0 else 15 := by
  unfold sliceIndex sx32 asr32
  rw [Nat.mod_eq_of_lt hx, and_15_eq_mod]
  by_cases h : x < 128
  · rw [if_pos h, if_pos (show x < 2147483648 by omega), if_pos h,
      Nat.shiftRight_eq_div_pow]
    omega
  · rw [if_neg h, if_neg (show ¬ x + 4294967040 < 2147483648 by omega),
      if_neg h, sub_pow_28, Nat.shiftRight_eq_div_pow]
    omega

theorem sliceIndex_zero_byte (bit : Nat) : sliceIndex 0 bit = 0 := by
  unfold sliceIndex sx32 asr32
  rw [if_pos (by norm_num), if_pos (by norm_num)]
  simp [Nat.shiftRight_eq_div_pow, Nat.zero_div]

set_option maxRecDepth 4000 in
/-- For bytes differing at the top bit the char XOR is negative: the
`(uint32_t)` cast sign-extends it, `util_mssb_index` sees bit 31, and
the masked offset is 28 — not 0 or 4. -/
theorem mssb_case28 : ∀ d, d < 256 → 128 ≤ d →
    util_mssb_index (sx32 d) &&& 252 = 28 := by decide

set_option maxRecDepth 2000 in
theorem mssb_case4 : ∀ d, d < 128 → 16 ≤ d →
    util_mssb_index (sx32 d) &&& 252 = 4 := by decide

theorem mssb_case0 : ∀ d, d < 16 → 0 < d →
    util_mssb_index (sx32 d) &&& 252 = 0 := by decide

theorem sign_differ {x y : Nat} (hx : x < 256) (hy : y < 256)
    (hd : 128 ≤ x ^^^ y) : ¬ (x < 128 ↔ y < 128) := by
  have hdlt : x ^^^ y < 256 := Nat.xor_lt_two_pow (n := 8) hx hy
  have h7 : (x ^^^ y) >>> 7 = 1 := by
    rw [Nat.shiftRight_eq_div_pow]
    omega
  rw [shiftRight_xor] at h7
  have hne : x >>> 7 ≠ y >>> 7 := by
    intro he
    rw [he, Nat.xor_self] at h7
    exact absurd h7 (by norm_num)
  rw [Nat.shiftRight_eq_div_pow, Nat.shiftRight_eq_div_pow] at hne
  norm_num at hne
  omega

theorem sign_agree {x y : Nat} (hx : x < 256) (hy : y < 256)
    (hd : x ^^^ y < 128) : (x < 128 ↔ y < 128) := by
  have h7 : (x ^^^ y) >>> 7 = 0 := by
    rw [Nat.shiftRight_eq_div_pow]
    omega
  rw [shiftRight_xor] at h7
  have he : x >>> 7 = y >>> 7 := Nat.xor_eq_zero.mp h7
  rw [Nat.shiftRight_eq_div_pow, Nat.shiftRight_eq_div_pow] at he
  norm_num at he
  omega

theorem hi_agree {x y : Nat} (hd : x ^^^ y < 16) : x >>> 4 = y >>> 4 := by
  have h4 : (x ^^^ y) >>> 4 = 0 := by
    rw [Nat.shiftRight_eq_div_pow]
    omega
  rw [shiftRight_xor] at h4
  exact Nat.xor_eq_zero.mp h4

/-- The facts `critnib_set` relies on about the divergence offset
`sh = util_mssb_index((uint32_t)(char)(x ^ y)) & ~(SLICE-1)` of two
distinct bytes: it is 0, 4 or 28; the two bytes disagree at slice `sh`;
it is 28 exactly when the bytes differ at the top bit; and below it the
bytes agree on every higher slice (the sign slice when `sh ≠ 28`,
additionally the high nibble when `sh = 0`). -/
theorem sh_facts (x y : Nat) (hx : x < 256) (hy : y < 256) (hxy : x ≠ y) :
    (util_mssb_index (sx32 (x ^^^ y)) &&& 252 = 0 ∨
     util_mssb_index (sx32 (x ^^^ y)) &&& 252 = 4 ∨
     util_mssb_index (sx32 (x ^^^ y)) &&& 252 = 28) ∧
    sliceIndex x (util_mssb_index (sx32 (x ^^^ y)) &&& 252) ≠
      sliceIndex y (util_mssb_index (sx32 (x ^^^ y)) &&& 252) ∧
    (util_mssb_index (sx32 (x ^^^ y)) &&& 252 ≠ 28 ↔ (x < 128 ↔ y < 128)) ∧
    (util_mssb_index (sx32 (x ^^^ y)) &&& 252 = 0 → x >>> 4 = y >>> 4) := by
  have hdlt : x ^^^ y < 256 := Nat.xor_lt_two_pow (n := 8) hx hy
  have hd0 : 0 < x ^^^ y := by
    rcases Nat.eq_zero_or_pos (x ^^^ y) with h | h
    · exact absurd (Nat.xor_eq_zero.mp h) hxy
    · exact h
  rcases Nat.lt_or_ge (x ^^^ y) 16 with h16 | h16
  · -- sh = 0: low-nibble divergence
    have hsh := mssb_case0 (x ^^^ y) (by omega) hd0
    rw [hsh]
    refine ⟨Or.inl rfl, ?_,
      iff_of_true (by norm_num) (sign_agree hx hy (by omega)),
      fun _ => hi_agree h16⟩
    rw [sliceIndex_0 hx, sliceIndex_0 hy]
    intro hc
    have : (x ^^^ y) &&& 15 = 0 := by
      rw [Nat.and_xor_distrib_right, hc, Nat.xor_self]
    rw [and_15_eq_mod] at this
    omega
  rcases Nat.lt_or_ge (x ^^^ y) 128 with h128 | h128
  · -- sh = 4: high-nibble divergence, same sign
    have hsh := mssb_case4 (x ^^^ y) (by omega) (by omega)
    rw [hsh]
    refine ⟨Or.inr (Or.inl rfl), ?_,
      iff_of_true (by norm_num) (sign_agree hx hy h128),
      fun hc => absurd hc (by norm_num)⟩
    rw [sliceIndex_4 hx, sliceIndex_4 hy]
    intro hc
    have : ((x ^^^ y) >>> 4) &&& 15 = 0 := by
      rw [shiftRight_xor, Nat.and_xor_distrib_right, hc, Nat.xor_self]
    rw [and_15_eq_mod, Nat.shiftRight_eq_div_pow] at this
    omega
  · -- sh = 28: the bytes differ at the sign bit
    have hsh := mssb_case28 (x ^^^ y) (by omega) h128
    rw [hsh]
    have hdi := sign_differ hx hy h128
    refine ⟨Or.inr (Or.inr rfl), ?_,
      iff_of_false (fun hc => hc rfl) hdi,
      fun hc => absurd hc (by norm_num)⟩
    rw [sliceIndex_28 hx, sliceIndex_28 hy]
    by_cases h1 : x < 128 <;> by_cases h2 : y < 128
    · exact absurd (iff_of_true h1 h2) hdi
    · rw [if_pos h1, if_neg h2]; norm_num
    · rw [if_neg h1, if_pos h2]; norm_num
    · exact absurd (iff_of_false h1 h2) hdi

theorem WFb_node_iff {ch : Fin 16 → CNode} {b t : Nat} :
    WFb (.node ch b t) = true ↔
      (t = 0 ∨ t = 4 ∨ t = 28) ∧
      2 ≤ (liveChildren ch).length ∧
      (∀ i, WFb (ch i) = true) ∧
      (∀ i : Fin 16, ∀ q ∈ leaves (ch i),
        posOf b t < (nibs q.1).length ∧ nibAt q.1 (posOf b t) = i.val) ∧
      (∀ q1 ∈ leaves (.node ch b t), ∀ q2 ∈ leaves (.node ch b t),
        (nibs q1.1).take (posOf b t) = (nibs q2.1).take (posOf b t)) := by
  rw [WFb]
  simp only [Bool.and_eq_true, Bool.or_eq_true, decide_eq_true_eq,
    List.all_eq_true, Bool.and_eq_true]
  constructor
  · rintro ⟨⟨⟨⟨h1, h2⟩, h3⟩, h4⟩, h5⟩
    refine ⟨or_assoc.mp h1, h2, fun i => h3 i (List.mem_finRange i), ?_, ?_⟩
    · intro i q hq
      obtain ⟨ha, hb⟩ := h4 i (List.mem_finRange i) q hq
      exact ⟨ha, hb⟩
    · intro q1 h1' q2 h2'
      exact h5 q1 h1' q2 h2'
  · rintro ⟨h1, h2, h3, h4, h5⟩
    refine ⟨⟨⟨⟨or_assoc.mpr h1, h2⟩, fun i _ => h3 i⟩, fun i _ q hq => ?_⟩,
      fun q1 h1' q2 h2' => h5 q1 h1' q2 h2'⟩
    obtain ⟨ha, hb⟩ := h4 i q hq
    exact ⟨ha, hb⟩

theorem WFb_leaf_iff {k : Key} {v : Nat} :
    WFb (.leaf k v) = true ↔ ∀ c ∈ k, c < 256 := by
  rw [WFb]
  simp [List.all_eq_true]

theorem bits0428_of_WFb : ∀ t : CNode, WFb t = true → bits0428 t = true := by
  intro t
  induction t with
  | empty => intro _; rfl
  | leaf k v => intro _; rfl
  | node ch b t ih =>
    intro h
    obtain ⟨h1, _, h3, _, _⟩ := WFb_node_iff.mp h
    rw [bits0428]
    simp only [Bool.and_eq_true, Bool.or_eq_true, decide_eq_true_eq,
      List.all_eq_true]
    exact ⟨or_assoc.mpr h1, fun i _ => ih i (h3 i)⟩

theorem twoChildren_of_WFb : ∀ t : CNode, WFb t = true → twoChildren t = true := by
  intro t
  induction t with
  | empty => intro _; rfl
  | leaf k v => intro _; rfl
  | node ch b t ih =>
    intro h
    obtain ⟨_, h2, h3, _, _⟩ := WFb_node_iff.mp h
    rw [twoChildren]
    simp only [Bool.and_eq_true, decide_eq_true_eq, List.all_eq_true]
    exact ⟨h2, fun i _ => ih i (h3 i)⟩

/-! ### Slice-string bridging lemmas -/

theorem getD_mem {l : List Nat} {n : Nat} (d : Nat) (h : n < l.length) :
    l.getD n d ∈ l := by
  rw [List.getD_eq_getElem?_getD, List.getElem?_eq_getElem h]
  exact List.getElem_mem h

theorem getD_of_take_eq {l1 l2 : List Nat} {n q : Nat}
    (h : l1.take n = l2.take n) (hq : q < n) (d : Nat) :
    l1.getD q d = l2.getD q d := by
  rw [List.getD_eq_getElem?_getD, List.getD_eq_getElem?_getD,
    ← List.getElem?_take_of_lt (l := l1) hq, h, List.getElem?_take_of_lt hq]

theorem take_mono_eq {l1 l2 : List Nat} {m n : Nat}
    (h : l1.take n = l2.take n) (hm : m ≤ n) : l1.take m = l2.take m := by
  have := congrArg (List.take m) h
  rwa [List.take_take, List.take_take, Nat.min_eq_left hm] at this

theorem length_le_of_take_eq {l1 l2 : List Nat} {n : Nat}
    (h : l1.take n = l2.take n) (hn : n ≤ l1.length) : n ≤ l2.length := by
  have := congrArg List.length h
  rw [List.length_take, List.length_take, Nat.min_eq_left hn] at this
  omega

theorem take_succ_of_take_eq {l1 l2 : List Nat} {n : Nat}
    (h : l1.take n = l2.take n) (hd : l1.getD n 0 = l2.getD n 0)
    (h1 : n < l1.length) (h2 : n < l2.length) :
    l1.take (n + 1) = l2.take (n + 1) := by
  rw [List.take_succ, List.take_succ, h]
  congr 1
  rw [List.getElem?_eq_getElem h1, List.getElem?_eq_getElem h2]
  have := hd
  rw [List.getD_eq_getElem?_getD, List.getD_eq_getElem?_getD,
    List.getElem?_eq_getElem h1, List.getElem?_eq_getElem h2] at this
  simpa using this

theorem nibs_length (k : Key) : (nibs k).length = 3 * k.length := by
  induction k with
  | nil => rfl
  | cons c k ih => simp [nibs, ih]; ring

theorem nibs_getD_sign {k : Key} {b : Nat} (hb : b < k.length) :
    (nibs k).getD (3 * b) 0 = if k.getD b 0 < 128 then 0 else 15 := by
  induction k generalizing b with
  | nil => simp at hb
  | cons c k ih =>
    cases b with
    | zero => simp [nibs]
    | succ b' =>
      have h3 : 3 * (b' + 1) = (3 * b') + 1 + 1 + 1 := by ring
      rw [h3]
      simp only [nibs, List.getD_cons_succ]
      exact ih (by simpa using hb)

theorem nibs_getD_hi {k : Key} {b : Nat} (hb : b < k.length) :
    (nibs k).getD (3 * b + 1) 0 = (k.getD b 0) >>> 4 := by
  induction k generalizing b with
  | nil => simp at hb
  | cons c k ih =>
    cases b with
    | zero => simp [nibs]
    | succ b' =>
      have h3 : 3 * (b' + 1) + 1 = (3 * b' + 1) + 1 + 1 + 1 := by ring
      rw [h3]
      simp only [nibs, List.getD_cons_succ]
      exact ih (by simpa using hb)

theorem nibs_getD_lo {k : Key} {b : Nat} (hb : b < k.length) :
    (nibs k).getD (3 * b + 2) 0 = (k.getD b 0) &&& 15 := by
  induction k generalizing b with
  | nil => simp at hb
  | cons c k ih =>
    cases b with
    | zero => simp [nibs]
    | succ b' =>
      have h3 : 3 * (b' + 1) + 2 = (3 * b' + 2) + 1 + 1 + 1 := by ring
      rw [h3]
      simp only [nibs, List.getD_cons_succ]
      exact ih (by simpa using hb)

theorem nibs_inj : ∀ k1 k2 : Key, nibs k1 = nibs k2 → k1 = k2 := by
  intro k1
  induction k1 with
  | nil => intro k2 h; cases k2 with
    | nil => rfl
    | cons c k => simp [nibs] at h
  | cons c1 k1 ih =>
    intro k2 h
    cases k2 with
    | nil => simp [nibs] at h
    | cons c2 k2 =>
      simp only [nibs, List.cons.injEq] at h
      obtain ⟨hs, hh, hl, ht⟩ := h
      have hc : c1 = c2 := by
        have e1 : c1 = 16 * (c1 >>> 4) + (c1 &&& 15) := by
          rw [Nat.shiftRight_eq_div_pow, and_15_eq_mod]
          have := Nat.div_add_mod c1 16
          norm_num
          omega
        have e2 : c2 = 16 * (c2 >>> 4) + (c2 &&& 15) := by
          rw [Nat.shiftRight_eq_div_pow, and_15_eq_mod]
          have := Nat.div_add_mod c2 16
          norm_num
          omega
        rw [e1, e2, hh, hl]
      rw [hc, ih k2 ht]

theorem nibs_take_mul3 (k : Key) (b : Nat) :
    (nibs k).take (3 * b) = nibs (k.take b) := by
  induction k generalizing b with
  | nil => simp [nibs]
  | cons c k ih =>
    cases b with
    | zero => simp [nibs]
    | succ b' =>
      have h3 : 3 * (b' + 1) = (3 * b') + 1 + 1 + 1 := by ring
      rw [h3]
      simp only [nibs, List.take_succ_cons]
      rw [ih b']

theorem shiftRight_lt_16 {c : Nat} (hc : c < 256) : c >>> 4 < 16 := by
  rw [Nat.shiftRight_eq_div_pow]
  omega

theorem sliceIndex_eq_nibAt {k : Key} (hk : ∀ c ∈ k, c < 256) {b t : Nat}
    (ht : t = 0 ∨ t = 4 ∨ t = 28) :
    sliceIndex (k.getD b 0) t = nibAt k (posOf b t) := by
  by_cases hb : b < k.length
  · have hc : k.getD b 0 < 256 := hk _ (getD_mem 0 hb)
    rcases ht with rfl | rfl | rfl
    · show sliceIndex (k.getD b 0) 0 = nibAt k (3 * b + 2)
      rw [sliceIndex_0 hc]
      unfold nibAt
      rw [nibs_getD_lo hb]
    · show sliceIndex (k.getD b 0) 4 = nibAt k (3 * b + 1)
      rw [sliceIndex_4 hc]
      unfold nibAt
      rw [nibs_getD_hi hb]
      rw [and_15_eq_mod, Nat.mod_eq_of_lt (shiftRight_lt_16 hc)]
    · show sliceIndex (k.getD b 0) 28 = nibAt k (3 * b)
      rw [sliceIndex_28 hc]
      unfold nibAt
      rw [nibs_getD_sign hb]
  · have hd : k.getD b 0 = 0 := List.getD_eq_default _ _ (by omega)
    have hn : nibAt k (posOf b t) = 0 := by
      unfold nibAt
      apply List.getD_eq_default
      rw [nibs_length]
      unfold posOf
      rcases ht with rfl | rfl | rfl <;> simp <;> omega
    rw [hd, hn, sliceIndex_zero_byte]

/-! ### Leaves and well-formedness basics -/

theorem isEmpty_false_iff {t : CNode} : isEmpty t = false ↔ t ≠ .empty := by
  cases t <;> simp [isEmpty]

theorem leaves_empty_of_isEmpty {t : CNode} (h : isEmpty t = true) :
    leaves t = [] := by
  cases t with
  | empty => rfl
  | leaf k v => simp [isEmpty] at h
  | node ch b bt => simp [isEmpty] at h

theorem mem_liveChildren {ch : Fin 16 → CNode} {c : CNode} :
    c ∈ liveChildren ch ↔ ∃ i, isEmpty (ch i) = false ∧ ch i = c := by
  unfold liveChildren
  rw [List.mem_filterMap]
  constructor
  · rintro ⟨i, _, hi⟩
    by_cases he : isEmpty (ch i)
    · rw [if_pos he] at hi; cases hi
    · rw [if_neg he] at hi
      exact ⟨i, by simpa using he, by injection hi⟩
  · rintro ⟨i, he, rfl⟩
    exact ⟨i, List.mem_finRange i, by rw [if_neg (by simp [he])]⟩

theorem exists_live_of_two {ch : Fin 16 → CNode}
    (h : 2 ≤ (liveChildren ch).length) : ∃ i, isEmpty (ch i) = false := by
  have hne : liveChildren ch ≠ [] := by
    intro e; rw [e] at h; simp at h
  obtain ⟨c, hc⟩ := List.exists_mem_of_ne_nil _ hne
  obtain ⟨i, hi, _⟩ := mem_liveChildren.mp hc
  exact ⟨i, hi⟩

theorem leaves_ne_nil {t : CNode} (hw : WFb t = true)
    (hne : isEmpty t = false) : leaves t ≠ [] := by
  induction t with
  | empty => simp [isEmpty] at hne
  | leaf k v => simp [leaves]
  | node ch b bt ih =>
    obtain ⟨_, h2, h3, _, _⟩ := WFb_node_iff.mp hw
    obtain ⟨i, hi⟩ := exists_live_of_two h2
    have hnn := ih i (h3 i) hi
    intro hnil
    obtain ⟨p, hp⟩ := List.exists_mem_of_ne_nil _ hnn
    have hmem : p ∈ leaves (.node ch b bt) := mem_leaves_node.mpr ⟨i, hp⟩
    rw [hnil] at hmem
    exact absurd hmem (List.not_mem_nil p)

theorem WF_bytes {t : CNode} (hw : WFb t = true) {k : Key} {v : Nat}
    (hk : (k, v) ∈ leaves t) : ∀ c ∈ k, c < 256 := by
  induction t with
  | empty => simp [leaves] at hk
  | leaf k0 v0 =>
    simp only [leaves, List.mem_singleton, Prod.mk.injEq] at hk
    obtain ⟨rfl, rfl⟩ := hk
    exact WFb_leaf_iff.mp hw
  | node ch b bt ih =>
    obtain ⟨_, _, h3, _, _⟩ := WFb_node_iff.mp hw
    obtain ⟨i, hp⟩ := mem_leaves_node.mp hk
    exact ih i (h3 i) hp

/-! ### Child-count utilities -/

theorem length_filterMap_eq_length_filter {α β : Type} (f : α → Option β)
    (l : List α) :
    (l.filterMap f).length = (l.filter (fun a => (f a).isSome)).length := by
  induction l with
  | nil => rfl
  | cons a l ih => cases hf : f a <;>
      simp [List.filterMap_cons, List.filter_cons, hf, ih]

theorem liveChildren_length_eq (ch : Fin 16 → CNode) :
    (liveChildren ch).length =
      ((List.finRange 16).filter (fun i => !isEmpty (ch i))).length := by
  unfold liveChildren
  rw [length_filterMap_eq_length_filter]
  congr 1
  apply List.filter_congr
  intro i _
  by_cases he : isEmpty (ch i) <;> simp [he]

theorem two_le_liveChildren_iff (ch : Fin 16 → CNode) :
    2 ≤ (liveChildren ch).length ↔
      ∃ i j : Fin 16, i ≠ j ∧ isEmpty (ch i) = false ∧ isEmpty (ch j) = false := by
  rw [liveChildren_length_eq]
  have hnd : ((List.finRange 16).filter (fun i => !isEmpty (ch i))).Nodup :=
    (List.nodup_finRange 16).filter _
  constructor
  · intro h2
    match hl : (List.finRange 16).filter (fun i => !isEmpty (ch i)) with
    | [] => rw [hl] at h2; simp at h2
    | [x] => rw [hl] at h2; simp at h2
    | x :: y :: rest =>
      rw [hl] at hnd
      have hxy : x ≠ y := by
        intro hxy
        have := List.nodup_cons.mp hnd
        exact this.1 (hxy ▸ List.mem_cons_self y rest)
      have hx : x ∈ (List.finRange 16).filter (fun i => !isEmpty (ch i)) := by
        rw [hl]; exact List.mem_cons_self _ _
      have hy : y ∈ (List.finRange 16).filter (fun i => !isEmpty (ch i)) := by
        rw [hl]; exact List.mem_cons_of_mem _ (List.mem_cons_self _ _)
      refine ⟨x, y, hxy, ?_, ?_⟩
      · have := (List.mem_filter.mp hx).2; simpa using this
      · have := (List.mem_filter.mp hy).2; simpa using this
  · rintro ⟨i, j, hij, hi, hj⟩
    have hmi : i ∈ (List.finRange 16).filter (fun a => !isEmpty (ch a)) :=
      List.mem_filter.mpr ⟨List.mem_finRange i, by simp [hi]⟩
    have hmj : j ∈ (List.finRange 16).filter (fun a => !isEmpty (ch a)) :=
      List.mem_filter.mpr ⟨List.mem_finRange j, by simp [hj]⟩
    match hl : (List.finRange 16).filter (fun a => !isEmpty (ch a)) with
    | [] => rw [hl] at hmi; exact absurd hmi (List.not_mem_nil i)
    | [x] =>
      rw [hl] at hmi hmj
      rw [List.mem_singleton] at hmi hmj
      exact absurd (hmi.trans hmj.symm) hij
    | x :: y :: rest => simp

theorem filterMap_singleton_unique {α β : Type} (f : α → Option β) (l : List α)
    (hnd : l.Nodup) (b : β) (h : l.filterMap f = [b]) :
    ∃ a ∈ l, f a = some b ∧ ∀ a' ∈ l, a' ≠ a → f a' = none := by
  induction l with
  | nil => simp at h
  | cons x l ih =>
    rw [List.filterMap_cons] at h
    cases hf : f x with
    | none =>
      rw [hf] at h
      obtain ⟨a, ha, hfa, hrest⟩ := ih (List.nodup_cons.mp hnd).2 h
      refine ⟨a, List.mem_cons_of_mem x ha, hfa, ?_⟩
      intro a' ha' hne
      rcases List.mem_cons.mp ha' with rfl | ha'
      · exact hf
      · exact hrest a' ha' hne
    | some b' =>
      rw [hf] at h
      injection h with h1 h2
      subst h1
      refine ⟨x, List.mem_cons_self x l, hf, ?_⟩
      intro a' ha' hne
      rcases List.mem_cons.mp ha' with rfl | ha'
      · exact absurd rfl hne
      · exact (List.filterMap_eq_nil_iff.mp h2) a' ha'

theorem liveChildren_singleton {ch : Fin 16 → CNode} {c' : CNode}
    (h : liveChildren ch = [c']) :
    ∃ j, isEmpty (ch j) = false ∧ ch j = c' ∧
      ∀ j', j' ≠ j → isEmpty (ch j') = true := by
  obtain ⟨j, _, hj, hrest⟩ :=
    filterMap_singleton_unique _ _ (List.nodup_finRange 16) c' h
  have hje : isEmpty (ch j) = false ∧ ch j = c' := by
    by_cases he : isEmpty (ch j)
    · rw [if_pos he] at hj; cases hj
    · rw [if_neg he] at hj
      exact ⟨by simpa using he, by injection hj⟩
  refine ⟨j, hje.1, hje.2, ?_⟩
  intro j' hne
  have := hrest j' (List.mem_finRange j') hne
  by_cases he : isEmpty (ch j')
  · exact he
  · rw [if_neg he] at this; cases this

/-! ### First-descent lemmas -/

theorem firstDiff_take : ∀ a b : Key,
    a.take (firstDiff a b) = b.take (firstDiff a b) := by
  intro a
  induction a with
  | nil => intro b; cases b <;> simp [firstDiff]
  | cons x as ih =>
    intro b
    cases b with
    | nil => simp [firstDiff]
    | cons y bs =>
      rw [firstDiff]
      by_cases hxy : x = y
      · subst hxy
        rw [if_pos rfl]
        simp only [List.take_succ_cons, List.cons.injEq, true_and]
        exact ih bs
      · rw [if_neg hxy]; simp

theorem firstDiff_get_ne : ∀ a b : Key,
    firstDiff a b < min a.length b.length →
    a.getD (firstDiff a b) 0 ≠ b.getD (firstDiff a b) 0 := by
  intro a
  induction a with
  | nil => intro b h; simp at h
  | cons x as ih =>
    intro b h
    cases b with
    | nil => simp at h
    | cons y bs =>
      rw [firstDiff] at h ⊢
      by_cases hxy : x = y
      · rw [if_pos hxy] at h ⊢
        simp only [List.getD_cons_succ]
        apply ih
        simp only [List.length_cons] at h
        omega
      · rw [if_neg hxy]
        simpa using hxy

theorem firstDiff_self : ∀ a : Key, firstDiff a a = a.length := by
  intro a
  induction a with
  | nil => rfl
  | cons x as ih => simp [firstDiff, ih]

theorem any_leaf_mem : ∀ t : CNode, WFb t = true → isEmpty t = false →
    isLeaf t = false →
    ∃ k v, any_leaf t = .leaf k v ∧ (k, v) ∈ leaves t := by
  intro t
  induction t with
  | empty => intro _ h _; simp [isEmpty] at h
  | leaf k v => intro _ _ h; simp [isLeaf] at h
  | node ch b bt ih =>
    intro hw _ _
    obtain ⟨_, h2, h3, _, _⟩ := WFb_node_iff.mp hw
    obtain ⟨i0, hi0⟩ := exists_live_of_two h2
    have hfind : ((List.finRange 16).find? (fun i => !isEmpty (ch i))).isSome := by
      rw [List.find?_isSome]
      exact ⟨i0, List.mem_finRange i0, by simp [hi0]⟩
    obtain ⟨i, hi⟩ := Option.isSome_iff_exists.mp hfind
    have hlive : isEmpty (ch i) = false := by
      have := List.find?_some hi
      simpa using this
    rw [any_leaf, hi]
    dsimp only
    by_cases hl : isLeaf (ch i)
    · rw [if_pos hl]
      cases hch : ch i with
      | empty => rw [hch] at hlive; simp [isEmpty] at hlive
      | node _ _ _ => rw [hch] at hl; simp [isLeaf] at hl
      | leaf k v =>
        exact ⟨k, v, rfl, mem_leaves_node.mpr ⟨i, by rw [hch]; simp [leaves]⟩⟩
    · rw [if_neg hl]
      obtain ⟨k, v, he, hm⟩ :=
        ih i (h3 i) hlive (by simpa using hl)
      exact ⟨k, v, he, mem_leaves_node.mpr ⟨i, hm⟩⟩

theorem findLeaf_mem : ∀ (t : CNode) (key : Key), WFb t = true →
    isEmpty t = false →
    ∃ nk nv, findLeaf key t = .leaf nk nv ∧ (nk, nv) ∈ leaves t := by
  intro t
  induction t with
  | empty => intro key _ h; simp [isEmpty] at h
  | leaf k v => intro key _ _; exact ⟨k, v, rfl, by simp [leaves]⟩
  | node ch b bt ih =>
    intro key hw _
    obtain ⟨_, _, h3, _, _⟩ := WFb_node_iff.mp hw
    rw [findLeaf]
    by_cases hb : b < key.length
    · rw [if_pos hb]
      by_cases he : isEmpty (ch (sliceFin (key.getD b 0) bt))
      · rw [if_pos he]
        obtain ⟨k, v, h1, h2⟩ := any_leaf_mem (.node ch b bt) hw rfl rfl
        exact ⟨k, v, h1, h2⟩
      · rw [if_neg he]
        obtain ⟨nk, nv, h1, h2⟩ :=
          ih _ key (h3 _) (by simpa using he)
        refine ⟨nk, nv, ?_, mem_leaves_node.mpr ⟨_, h2⟩⟩
        simpa only [List.getD_eq_getElem?_getD] using h1
    · rw [if_neg hb]
      obtain ⟨k, v, h1, h2⟩ := any_leaf_mem (.node ch b bt) hw rfl rfl
      exact ⟨k, v, h1, h2⟩

theorem findLeaf_hit : ∀ (t : CNode), WFb t = true →
    ∀ {key : Key} {v : Nat}, (key, v) ∈ leaves t →
    findLeaf key t = .leaf key v := by
  intro t
  induction t with
  | empty => intro _ key v hk; simp [leaves] at hk
  | leaf k0 v0 =>
    intro _ key v hk
    simp only [leaves, List.mem_singleton, Prod.mk.injEq] at hk
    obtain ⟨rfl, rfl⟩ := hk
    rfl
  | node ch b bt ih =>
    intro hw key v hk
    obtain ⟨ht04, _, h3, h4, _⟩ := WFb_node_iff.mp hw
    obtain ⟨j, hj⟩ := mem_leaves_node.mp hk
    obtain ⟨hlen, hnib⟩ := h4 j (key, v) hj
    rw [nibs_length] at hlen
    have hb : b < key.length := by
      unfold posOf at hlen
      rcases ht04 with rfl | rfl | rfl <;> simp at hlen <;> omega
    have hbytes : ∀ c ∈ key, c < 256 := WF_bytes hw hk
    have hfin : sliceFin (key.getD b 0) bt = j := by
      apply Fin.ext
      show sliceIndex (key.getD b 0) bt = j.val
      rw [sliceIndex_eq_nibAt hbytes ht04, hnib]
    have hne : isEmpty (ch j) = false := by
      by_cases he : isEmpty (ch j)
      · rw [leaves_empty_of_isEmpty he] at hj
        exact absurd hj (List.not_mem_nil _)
      · simpa using he
    rw [findLeaf, if_pos hb, hfin, if_neg (by simp [hne])]
    exact ih j (h3 j) hj

theorem posOf_le_iff {b bt : Nat} (ht : bt = 0 ∨ bt = 4 ∨ bt = 28) :
    3 * b ≤ posOf b bt ∧ posOf b bt ≤ 3 * b + 2 := by
  unfold posOf
  rcases ht with rfl | rfl | rfl <;> simp

/-- `findLeaf` maximality: no key stored in the trie agrees with the
probe key strictly beyond the divergence position of the leaf that the
first descent returned. -/
theorem findLeaf_max : ∀ (t : CNode), WFb t = true →
    ∀ {key nk : Key} {nv : Nat}, findLeaf key t = .leaf nk nv →
    (∀ c ∈ key, c < 256) →
    ∀ {P : Nat}, (nibs nk).take P = (nibs key).take P →
    nibAt nk P ≠ nibAt key P → P < (nibs key).length →
    ∀ k' v', (k', v') ∈ leaves t →
      (nibs k').take (P + 1) ≠ (nibs key).take (P + 1) := by
  intro t
  induction t with
  | empty =>
    intro _ key nk nv hf
    simp [findLeaf] at hf
  | leaf k0 v0 =>
    intro _ key nk nv hf hkb P htake hne hlen k' v' hk' heq
    simp only [findLeaf, CNode.leaf.injEq] at hf
    obtain ⟨rfl, rfl⟩ := hf
    simp only [leaves, List.mem_singleton, Prod.mk.injEq] at hk'
    obtain ⟨rfl, rfl⟩ := hk'
    exact hne (getD_of_take_eq heq (Nat.lt_succ_self P) 0)
  | node ch b bt ih =>
    intro hw key nk nv hf hkb P htake hne hlen k' v' hk' heq
    obtain ⟨ht04, h2, h3, h4, h5⟩ := WFb_node_iff.mp hw
    obtain ⟨j, hj⟩ := mem_leaves_node.mp hk'
    have hposA := posOf_le_iff (b := b) ht04
    -- the two generic refutations
    have case_lt : posOf b bt ≤ P → ∀ jj : Fin 16, (k', v') ∈ leaves (ch jj) →
        jj.val ≠ nibAt key (posOf b bt) → False := by
      intro hle jj hjj hjne
      obtain ⟨_, hnibk'⟩ := h4 jj (k', v') hjj
      have := getD_of_take_eq heq (by omega : posOf b bt < P + 1) 0
      exact hjne (by rw [← hnibk']; exact this)
    have case_gt : P < posOf b bt → (nk, nv) ∈ leaves (.node ch b bt) → False := by
      intro hgt hnkmem
      have hagree := h5 (k', v') hk' (nk, nv) hnkmem
      have h1 : (nibs k').take (P + 1) = (nibs nk).take (P + 1) :=
        take_mono_eq hagree (by omega)
      have h2' : (nibs nk).take (P + 1) = (nibs key).take (P + 1) := by
        rw [← h1]; exact heq
      exact hne (getD_of_take_eq h2' (Nat.lt_succ_self P) 0)
    rw [findLeaf] at hf
    by_cases hb : b < key.length
    · rw [if_pos hb] at hf
      by_cases he : isEmpty (ch (sliceFin (key.getD b 0) bt))
      · rw [if_pos he] at hf
        obtain ⟨k1, v1, hany, hmem⟩ := any_leaf_mem (.node ch b bt) hw rfl rfl
        rw [hf] at hany
        injection hany with e1 e2
        subst e1; subst e2
        rcases Nat.lt_or_ge P (posOf b bt) with hgt | hle
        · exact case_gt hgt hmem
        · -- posOf b bt ≤ P; the probed child slot is empty, so j ≠ slot
          have hji : j ≠ sliceFin (key.getD b 0) bt := by
            intro hji
            rw [hji, leaves_empty_of_isEmpty he] at hj
            exact absurd hj (List.not_mem_nil _)
          apply case_lt hle j hj
          rw [← sliceIndex_eq_nibAt hkb ht04]
          intro hv
          exact hji (Fin.ext hv)
      · rw [if_neg he] at hf
        by_cases hji : j = sliceFin (key.getD b 0) bt
        · subst hji
          exact ih _ (h3 _) hf hkb htake hne hlen k' v' hj heq
        · obtain ⟨nk1, nv1, hfl, hmem⟩ :=
            findLeaf_mem (ch (sliceFin (key.getD b 0) bt)) key
              (h3 _) (by simpa using he)
          rw [hf] at hfl
          injection hfl with e1 e2
          subst e1; subst e2
          rcases Nat.lt_or_ge P (posOf b bt) with hgt | hle
          · exact case_gt hgt (mem_leaves_node.mpr ⟨_, hmem⟩)
          · apply case_lt hle j hj
            rw [← sliceIndex_eq_nibAt hkb ht04]
            intro hv
            exact hji (Fin.ext hv)
    · rw [if_neg hb] at hf
      obtain ⟨k1, v1, hany, hmem⟩ := any_leaf_mem (.node ch b bt) hw rfl rfl
      rw [hf] at hany
      injection hany with e1 e2
      subst e1; subst e2
      have hgt : P < posOf b bt := by
        rw [nibs_length] at hlen
        omega
      exact case_gt hgt hmem

/-! ### Insert correctness -/

theorem isEmpty_false_of_mem {s : CNode} {p : Key × Nat}
    (h : p ∈ leaves s) : isEmpty s = false := by
  cases s with
  | empty => simp [leaves] at h
  | leaf k v => rfl
  | node ch b bt => rfl

theorem mem_leaves_update {ch : Fin 16 → CNode} {i : Fin 16} {c : CNode}
    {b bt : Nat} {p : Key × Nat} :
    p ∈ leaves (.node (Function.update ch i c) b bt) ↔
      p ∈ leaves c ∨ ∃ j, j ≠ i ∧ p ∈ leaves (ch j) := by
  rw [mem_leaves_node]
  constructor
  · rintro ⟨j, hj⟩
    by_cases hji : j = i
    · subst hji; rw [Function.update_same] at hj; exact Or.inl hj
    · rw [Function.update_noteq hji] at hj; exact Or.inr ⟨j, hji, hj⟩
  · rintro (hc | ⟨j, hji, hj⟩)
    · exact ⟨i, by rw [Function.update_same]; exact hc⟩
    · exact ⟨j, by rw [Function.update_noteq hji]; exact hj⟩

theorem mem_leaves_split {aF bF : Fin 16} (hab : aF ≠ bF) {sA sB : CNode}
    {diff sh : Nat} {p : Key × Nat} :
    p ∈ leaves (.node
      (Function.update (Function.update (fun _ => CNode.empty) aF sA) bF sB)
      diff sh) ↔ p ∈ leaves sB ∨ p ∈ leaves sA := by
  rw [mem_leaves_update]
  constructor
  · rintro (h | ⟨j, hji, hj⟩)
    · exact Or.inl h
    · by_cases hja : j = aF
      · subst hja; rw [Function.update_same] at hj; exact Or.inr hj
      · rw [Function.update_noteq hja] at hj
        simp [leaves] at hj
  · rintro (h | h)
    · exact Or.inl h
    · refine Or.inr ⟨aF, hab, ?_⟩
      rw [Function.update_same]
      exact h

theorem descend_iff {b bt diff sh : Nat} (hbt : bt = 0 ∨ bt = 4 ∨ bt = 28)
    (hsh : sh = 0 ∨ sh = 4 ∨ sh = 28) :
    (b < diff ∨ (b = diff ∧ sh ≤ bt)) ↔ posOf b bt ≤ posOf diff sh := by
  unfold posOf
  rcases hbt with rfl | rfl | rfl <;> rcases hsh with rfl | rfl | rfl <;>
    simp <;> omega

theorem insertAt_main : ∀ (s : CNode), WFb s = true →
    ∀ {key nk : Key} (v : Nat) {diff sh : Nat},
    (∀ c ∈ key, c < 256) → (∀ c ∈ nk, c < 256) →
    (sh = 0 ∨ sh = 4 ∨ sh = 28) →
    (nibs nk).take (posOf diff sh) = (nibs key).take (posOf diff sh) →
    nibAt nk (posOf diff sh) ≠ nibAt key (posOf diff sh) →
    posOf diff sh < (nibs key).length →
    posOf diff sh < (nibs nk).length →
    (∀ k' v', (k', v') ∈ leaves s →
      (nibs k').take (posOf diff sh + 1) ≠ (nibs key).take (posOf diff sh + 1)) →
    (isEmpty s = true ∨ ∃ nv, (nk, nv) ∈ leaves s) →
    (insertAt key v diff sh (nk.getD diff 0) true s).1 = 0 ∧
    WFb (insertAt key v diff sh (nk.getD diff 0) true s).2 = true ∧
    ∀ p : Key × Nat,
      p ∈ leaves (insertAt key v diff sh (nk.getD diff 0) true s).2 ↔
        p = (key, v) ∨ p ∈ leaves s := by
  intro s
  induction s with
  | empty =>
    intro _ key nk v diff sh hkb hnkb hsh htake hne hlenk hlennk hnag hinv
    refine ⟨rfl, ?_, ?_⟩
    · exact WFb_leaf_iff.mpr hkb
    · intro p
      simp [insertAt, leaves]
  | leaf k0 v0 =>
    intro hw key nk v diff sh hkb hnkb hsh htake hne hlenk hlennk hnag hinv
    rcases hinv with hinv | ⟨nv, hnk⟩
    · simp [isEmpty] at hinv
    simp only [leaves, List.mem_singleton, Prod.mk.injEq] at hnk
    obtain ⟨rfl, rfl⟩ := hnk
    have aval : sliceIndex (nk.getD diff 0) sh = nibAt nk (posOf diff sh) :=
      sliceIndex_eq_nibAt hnkb hsh
    have bval : sliceIndex (key.getD diff 0) sh = nibAt key (posOf diff sh) :=
      sliceIndex_eq_nibAt hkb hsh
    have hfab : sliceFin (nk.getD diff 0) sh ≠ sliceFin (key.getD diff 0) sh := by
      intro hc
      apply hne
      rw [← aval, ← bval]
      exact congrArg Fin.val hc
    rw [insertAt, if_pos rfl]
    refine ⟨rfl, ?_, ?_⟩
    · rw [WFb_node_iff]
      refine ⟨hsh, ?_, ?_, ?_, ?_⟩
      · rw [two_le_liveChildren_iff]
        refine ⟨sliceFin (key.getD diff 0) sh, sliceFin (nk.getD diff 0) sh,
          fun h => hfab h.symm, ?_, ?_⟩
        · rw [Function.update_same]; rfl
        · rw [Function.update_noteq hfab, Function.update_same]; rfl
      · intro i
        by_cases hib : i = sliceFin (key.getD diff 0) sh
        · subst hib; rw [Function.update_same]; exact WFb_leaf_iff.mpr hkb
        · rw [Function.update_noteq hib]
          by_cases hia : i = sliceFin (nk.getD diff 0) sh
          · subst hia; rw [Function.update_same]; exact hw
          · rw [Function.update_noteq hia]; rfl
      · intro i q hq
        by_cases hib : i = sliceFin (key.getD diff 0) sh
        · subst hib
          rw [Function.update_same] at hq
          simp only [leaves, List.mem_singleton] at hq
          subst hq
          exact ⟨hlenk, bval.symm⟩
        · rw [Function.update_noteq hib] at hq
          by_cases hia : i = sliceFin (nk.getD diff 0) sh
          · subst hia
            rw [Function.update_same] at hq
            simp only [leaves, List.mem_singleton] at hq
            subst hq
            exact ⟨hlennk, aval.symm⟩
          · rw [Function.update_noteq hia] at hq
            simp [leaves] at hq
      · intro q1 hq1 q2 hq2
        rw [mem_leaves_split hfab] at hq1 hq2
        have key1 : ∀ q : Key × Nat,
            (q ∈ leaves (CNode.leaf key v) ∨ q ∈ leaves (CNode.leaf nk nv)) →
            (nibs q.1).take (posOf diff sh) = (nibs key).take (posOf diff sh) := by
          rintro q (hq | hq) <;>
            simp only [leaves, List.mem_singleton] at hq <;> subst hq
          · rfl
          · exact htake
        rw [key1 q1 hq1, key1 q2 hq2]
    · intro p
      rw [mem_leaves_split hfab]
      simp [leaves, eq_comm]
  | node ch b bt ih =>
    intro hw key nk v diff sh hkb hnkb hsh htake hne hlenk hlennk hnag hinv
    obtain ⟨ht04, h2, h3, h4, h5⟩ := WFb_node_iff.mp hw
    rcases hinv with hinv | ⟨nv0, hnk⟩
    · simp [isEmpty] at hinv
    have aval : sliceIndex (nk.getD diff 0) sh = nibAt nk (posOf diff sh) :=
      sliceIndex_eq_nibAt hnkb hsh
    have bval : sliceIndex (key.getD diff 0) sh = nibAt key (posOf diff sh) :=
      sliceIndex_eq_nibAt hkb hsh
    have hfab : sliceFin (nk.getD diff 0) sh ≠ sliceFin (key.getD diff 0) sh := by
      intro hc
      apply hne
      rw [← aval, ← bval]
      exact congrArg Fin.val hc
    have ival : (sliceFin (key.getD b 0) bt).val = nibAt key (posOf b bt) :=
      sliceIndex_eq_nibAt hkb ht04
    rw [insertAt]
    by_cases hcond : b < diff ∨ (b = diff ∧ sh ≤ bt)
    · -- descend into the child on the key's path
      have hposle : posOf b bt ≤ posOf diff sh := (descend_iff ht04 hsh).mp hcond
      obtain ⟨jn, hjn⟩ := mem_leaves_node.mp hnk
      obtain ⟨hjnlen, hjnnib⟩ := h4 jn (nk, nv0) hjn
      simp only [if_pos hcond]
      have hchild : isEmpty (ch (sliceFin (key.getD b 0) bt)) = true ∨
          ∃ nv, (nk, nv) ∈ leaves (ch (sliceFin (key.getD b 0) bt)) := by
        rcases Nat.lt_or_ge (posOf b bt) (posOf diff sh) with hlt | hge
        · -- strictly before the divergence: nk and key share this nibble
          have hsame : nibAt nk (posOf b bt) = nibAt key (posOf b bt) :=
            getD_of_take_eq htake hlt 0
          have hj' : nibAt nk (posOf b bt) = jn.val := hjnnib
          have : jn = sliceFin (key.getD b 0) bt := by
            apply Fin.ext
            rw [← hj', hsame, ival]
          rw [← this]
          exact Or.inr ⟨nv0, hjn⟩
        · -- exactly at the divergence: the key-side slot must be empty
          have hPeq : posOf b bt = posOf diff sh := Nat.le_antisymm hposle hge
          left
          by_cases he : isEmpty (ch (sliceFin (key.getD b 0) bt))
          · exact he
          · exfalso
            have hnn := leaves_ne_nil (h3 (sliceFin (key.getD b 0) bt))
              (eq_false_of_not_true he)
            obtain ⟨q, hq⟩ := List.exists_mem_of_ne_nil _ hnn
            obtain ⟨hqlen, hqnib⟩ := h4 (sliceFin (key.getD b 0) bt) q hq
            have hq5 := h5 q (mem_leaves_node.mpr ⟨_, hq⟩) (nk, nv0) hnk
            rw [hPeq] at hq5 hqlen hqnib
            have hqkey : (nibs q.1).take (posOf diff sh) =
                (nibs key).take (posOf diff sh) := hq5.trans htake
            have hqnibkey : nibAt q.1 (posOf diff sh) =
                nibAt key (posOf diff sh) := by
              rw [hqnib, ← hPeq]
              exact ival
            have : (nibs q.1).take (posOf diff sh + 1) =
                (nibs key).take (posOf diff sh + 1) :=
              take_succ_of_take_eq hqkey hqnibkey hqlen hlenk
            exact hnag q.1 q.2 (mem_leaves_node.mpr ⟨_, hq⟩) this
      have hnagc : ∀ k' v', (k', v') ∈ leaves (ch (sliceFin (key.getD b 0) bt)) →
          (nibs k').take (posOf diff sh + 1) ≠ (nibs key).take (posOf diff sh + 1) := by
        intro k' v' hm
        exact hnag k' v' (mem_leaves_node.mpr ⟨_, hm⟩)
      obtain ⟨hr1, hrWF, hrchar⟩ :=
        ih _ (h3 _) v hkb hnkb hsh htake hne hlenk hlennk hnagc hchild
      refine ⟨hr1, ?_, ?_⟩
      · rw [WFb_node_iff]
        have hr2live : isEmpty
            (insertAt key v diff sh (nk.getD diff 0) true
              (ch (sliceFin (key.getD b 0) bt))).2 = false :=
          isEmpty_false_of_mem ((hrchar (key, v)).mpr (Or.inl rfl))
        refine ⟨ht04, ?_, ?_, ?_, ?_⟩
        · obtain ⟨i1, i2, hi12, hl1, hl2⟩ := (two_le_liveChildren_iff ch).mp h2
          rw [two_le_liveChildren_iff]
          refine ⟨i1, i2, hi12, ?_, ?_⟩
          · by_cases hc1 : i1 = sliceFin (key.getD b 0) bt
            · subst hc1; rw [Function.update_same]; exact hr2live
            · rw [Function.update_noteq hc1]; exact hl1
          · by_cases hc2 : i2 = sliceFin (key.getD b 0) bt
            · subst hc2; rw [Function.update_same]; exact hr2live
            · rw [Function.update_noteq hc2]; exact hl2
        · intro i
          by_cases hci : i = sliceFin (key.getD b 0) bt
          · subst hci; rw [Function.update_same]; exact hrWF
          · rw [Function.update_noteq hci]; exact h3 i
        · intro i q hq
          by_cases hci : i = sliceFin (key.getD b 0) bt
          · subst hci
            rw [Function.update_same] at hq
            rcases (hrchar q).mp hq with rfl | hold
            · exact ⟨Nat.lt_of_le_of_lt hposle hlenk, ival.symm⟩
            · exact h4 _ q hold
          · rw [Function.update_noteq hci] at hq
            exact h4 i q hq
        · intro q1 hq1 q2 hq2
          have key1 : ∀ q : Key × Nat,
              q ∈ leaves (.node (Function.update ch (sliceFin (key.getD b 0) bt)
                (insertAt key v diff sh (nk.getD diff 0) true
                  (ch (sliceFin (key.getD b 0) bt))).2) b bt) →
              (nibs q.1).take (posOf b bt) = (nibs nk).take (posOf b bt) := by
            intro q hq
            rw [mem_leaves_update] at hq
            rcases hq with hq | ⟨j, hji, hq⟩
            · rcases (hrchar q).mp hq with rfl | hold
              · exact (take_mono_eq htake.symm hposle).symm.symm ▸
                  (take_mono_eq htake hposle).symm
              · exact h5 q (mem_leaves_node.mpr ⟨_, hold⟩) (nk, nv0) hnk
            · exact h5 q (mem_leaves_node.mpr ⟨j, hq⟩) (nk, nv0) hnk
          rw [key1 q1 hq1, key1 q2 hq2]
      · intro p
        rw [mem_leaves_update]
        constructor
        · rintro (hp | ⟨j, hji, hp⟩)
          · rcases (hrchar p).mp hp with rfl | hold
            · exact Or.inl rfl
            · exact Or.inr (mem_leaves_node.mpr ⟨_, hold⟩)
          · exact Or.inr (mem_leaves_node.mpr ⟨j, hp⟩)
        · rintro (rfl | hp)
          · exact Or.inl ((hrchar (key, v)).mpr (Or.inl rfl))
          · obtain ⟨j, hj⟩ := mem_leaves_node.mp hp
            by_cases hji : j = sliceFin (key.getD b 0) bt
            · subst hji
              exact Or.inl ((hrchar p).mpr (Or.inr hj))
            · exact Or.inr ⟨j, hji, hj⟩
    · -- stop: split the edge here
      have hposgt : posOf diff sh < posOf b bt := by
        have := (descend_iff ht04 hsh).not.mp hcond
        omega
      rw [if_neg hcond, if_pos rfl]
      have hq_all : ∀ q : Key × Nat, q ∈ leaves (.node ch b bt) →
          (nibs q.1).take (posOf diff sh + 1) = (nibs nk).take (posOf diff sh + 1) := by
        intro q hq
        exact take_mono_eq (h5 q hq (nk, nv0) hnk) (by omega)
      have hq_nib : ∀ q : Key × Nat, q ∈ leaves (.node ch b bt) →
          nibAt q.1 (posOf diff sh) = nibAt nk (posOf diff sh) := by
        intro q hq
        exact getD_of_take_eq (hq_all q hq) (Nat.lt_succ_self _) 0
      have hq_len : ∀ q : Key × Nat, q ∈ leaves (.node ch b bt) →
          posOf diff sh < (nibs q.1).length := by
        intro q hq
        have := length_le_of_take_eq (hq_all q hq).symm (by omega)
        omega
      refine ⟨rfl, ?_, ?_⟩
      · rw [WFb_node_iff]
        refine ⟨hsh, ?_, ?_, ?_, ?_⟩
        · rw [two_le_liveChildren_iff]
          refine ⟨sliceFin (key.getD diff 0) sh, sliceFin (nk.getD diff 0) sh,
            fun h => hfab h.symm, ?_, ?_⟩
          · rw [Function.update_same]; rfl
          · rw [Function.update_noteq hfab, Function.update_same]; rfl
        · intro i
          by_cases hib : i = sliceFin (key.getD diff 0) sh
          · subst hib; rw [Function.update_same]; exact WFb_leaf_iff.mpr hkb
          · rw [Function.update_noteq hib]
            by_cases hia : i = sliceFin (nk.getD diff 0) sh
            · subst hia; rw [Function.update_same]; exact hw
            · rw [Function.update_noteq hia]; rfl
        · intro i q hq
          by_cases hib : i = sliceFin (key.getD diff 0) sh
          · subst hib
            rw [Function.update_same] at hq
            simp only [leaves, List.mem_singleton] at hq
            subst hq
            exact ⟨hlenk, bval.symm⟩
          · rw [Function.update_noteq hib] at hq
            by_cases hia : i = sliceFin (nk.getD diff 0) sh
            · subst hia
              rw [Function.update_same] at hq
              exact ⟨hq_len q hq, (hq_nib q hq).trans aval.symm⟩
            · rw [Function.update_noteq hia] at hq
              simp [leaves] at hq
        · intro q1 hq1 q2 hq2
          rw [mem_leaves_split hfab] at hq1 hq2
          have key1 : ∀ q : Key × Nat,
              (q ∈ leaves (CNode.leaf key v) ∨ q ∈ leaves (.node ch b bt)) →
              (nibs q.1).take (posOf diff sh) = (nibs nk).take (posOf diff sh) := by
            rintro q (hq | hq)
            · simp only [leaves, List.mem_singleton] at hq
              subst hq
              exact htake.symm
            · exact take_mono_eq (hq_all q hq) (Nat.le_succ _)
          rw [key1 q1 hq1, key1 q2 hq2]
      · intro p
        rw [mem_leaves_split hfab]
        simp only [leaves, List.mem_singleton]

theorem divergence_nib_facts {nk key : Key} {diff sh : Nat}
    (hnkb : ∀ c ∈ nk, c < 256) (hkb : ∀ c ∈ key, c < 256)
    (hdiff : diff = firstDiff nk key)
    (hshe : sh = util_mssb_index
      (sx32 ((nk.getD diff 0) ^^^ (key.getD diff 0))) &&& 252)
    (hd : diff < min nk.length key.length) :
    (sh = 0 ∨ sh = 4 ∨ sh = 28) ∧
    (nibs nk).take (posOf diff sh) = (nibs key).take (posOf diff sh) ∧
    nibAt nk (posOf diff sh) ≠ nibAt key (posOf diff sh) ∧
    posOf diff sh < (nibs key).length ∧ posOf diff sh < (nibs nk).length := by
  have hdnk : diff < nk.length := by omega
  have hdkey : diff < key.length := by omega
  have hx : nk.getD diff 0 < 256 := hnkb _ (getD_mem 0 hdnk)
  have hy : key.getD diff 0 < 256 := hkb _ (getD_mem 0 hdkey)
  have hxy : nk.getD diff 0 ≠ key.getD diff 0 := by
    rw [hdiff]
    rw [hdiff] at hd
    exact firstDiff_get_ne nk key hd
  obtain ⟨hsh04, hslice, hsign, hhi⟩ := sh_facts _ _ hx hy hxy
  rw [← hshe] at hsh04 hslice hsign hhi
  have htake0 : nk.take diff = key.take diff := by
    rw [hdiff]; exact firstDiff_take nk key
  have htake3 : (nibs nk).take (3 * diff) = (nibs key).take (3 * diff) := by
    rw [nibs_take_mul3, nibs_take_mul3, htake0]
  have hposle : posOf diff sh ≤ 3 * diff + 2 := (posOf_le_iff hsh04).2
  have hlenk : posOf diff sh < (nibs key).length := by
    rw [nibs_length]; omega
  have hlennk : posOf diff sh < (nibs nk).length := by
    rw [nibs_length]; omega
  refine ⟨hsh04, ?_, ?_, hlenk, hlennk⟩
  · rcases hsh04 with hsh0 | hsh4 | hsh28
    · subst hsh0
      have hsiff : nk.getD diff 0 < 128 ↔ key.getD diff 0 < 128 :=
        hsign.mp (by norm_num)
      have hsgn : (nibs nk).getD (3 * diff) 0 = (nibs key).getD (3 * diff) 0 := by
        rw [nibs_getD_sign hdnk, nibs_getD_sign hdkey]
        by_cases h1 : nk.getD diff 0 < 128
        · rw [if_pos h1, if_pos (hsiff.mp h1)]
        · rw [if_neg h1, if_neg (fun h2 => h1 (hsiff.mpr h2))]
      have ht1 : (nibs nk).take (3 * diff + 1) = (nibs key).take (3 * diff + 1) :=
        take_succ_of_take_eq htake3 hsgn (by rw [nibs_length]; omega)
          (by rw [nibs_length]; omega)
      have hheq : (nibs nk).getD (3 * diff + 1) 0 =
          (nibs key).getD (3 * diff + 1) 0 := by
        rw [nibs_getD_hi hdnk, nibs_getD_hi hdkey, hhi rfl]
      show (nibs nk).take (3 * diff + 2) = (nibs key).take (3 * diff + 2)
      exact take_succ_of_take_eq ht1 hheq (by rw [nibs_length]; omega)
        (by rw [nibs_length]; omega)
    · subst hsh4
      have hsiff : nk.getD diff 0 < 128 ↔ key.getD diff 0 < 128 :=
        hsign.mp (by norm_num)
      have hsgn : (nibs nk).getD (3 * diff) 0 = (nibs key).getD (3 * diff) 0 := by
        rw [nibs_getD_sign hdnk, nibs_getD_sign hdkey]
        by_cases h1 : nk.getD diff 0 < 128
        · rw [if_pos h1, if_pos (hsiff.mp h1)]
        · rw [if_neg h1, if_neg (fun h2 => h1 (hsiff.mpr h2))]
      show (nibs nk).take (3 * diff + 1) = (nibs key).take (3 * diff + 1)
      exact take_succ_of_take_eq htake3 hsgn (by rw [nibs_length]; omega)
        (by rw [nibs_length]; omega)
    · subst hsh28
      show (nibs nk).take (3 * diff) = (nibs key).take (3 * diff)
      exact htake3
  · rw [← sliceIndex_eq_nibAt hnkb hsh04, ← sliceIndex_eq_nibAt hkb hsh04]
    exact hslice

theorem critnib_set_insert {t : CNode} (hw : WFb t = true) {key : Key}
    (v : Nat) (hkb : ∀ c ∈ key, c < 256)
    (hcompat : ∀ k' v', (k', v') ∈ leaves t →
      firstDiff k' key < min k'.length key.length) :
    (critnib_set t key v true true).1 = 0 ∧
    WFb (critnib_set t key v true true).2 = true ∧
    ∀ p : Key × Nat, p ∈ leaves (critnib_set t key v true true).2 ↔
      p = (key, v) ∨ p ∈ leaves t := by
  rw [critnib_set, if_neg (by simp)]
  by_cases he : isEmpty t
  · rw [if_pos he]
    refine ⟨rfl, WFb_leaf_iff.mpr hkb, ?_⟩
    intro p
    have : leaves t = [] := leaves_empty_of_isEmpty he
    rw [this]
    simp [leaves]
  · rw [if_neg he]
    obtain ⟨nk, nv, hfl, hmem⟩ := findLeaf_mem t key hw (eq_false_of_not_true he)
    rw [hfl]
    dsimp only
    have hd : firstDiff nk key < min nk.length key.length := hcompat nk nv hmem
    rw [if_neg (by omega)]
    obtain ⟨hsh04, htake, hne, hlenk, hlennk⟩ :=
      divergence_nib_facts (WF_bytes hw hmem) hkb rfl rfl hd
    have hnag := findLeaf_max t hw hfl hkb htake hne hlenk
    exact insertAt_main t hw v hkb (WF_bytes hw hmem) hsh04 htake hne hlenk
      hlennk (fun k' v' hm => hnag k' v' hm) (Or.inr ⟨nv, hmem⟩)

theorem critnib_set_exist {t : CNode} (hw : WFb t = true) {key : Key}
    {v0 : Nat} (hmem : (key, v0) ∈ leaves t) (v : Nat) (nodeOk : Bool) :
    critnib_set t key v true nodeOk = (EEXIST, t) := by
  have hne : isEmpty t = false := isEmpty_false_of_mem hmem
  rw [critnib_set, if_neg (by simp), if_neg (by simp [hne]),
    findLeaf_hit t hw hmem]
  dsimp only
  rw [if_pos (by rw [firstDiff_self, Nat.min_self])]

theorem insertAt_false_cases (key : Key) (v diff sh nkByte : Nat) :
    ∀ s : CNode,
    insertAt key v diff sh nkByte false s = insertAt key v diff sh nkByte true s ∨
    insertAt key v diff sh nkByte false s = (ENOMEM, s) := by
  intro s
  induction s with
  | empty => exact Or.inl rfl
  | leaf k0 v0 =>
    right
    rw [insertAt, if_neg (by simp)]
  | node ch b t ihn =>
    by_cases hcond : b < diff ∨ (b = diff ∧ sh ≤ t)
    · rw [insertAt, if_pos hcond, insertAt, if_pos hcond]
      dsimp only
      rcases ihn (sliceFin (key.getD b 0) t) with heq | heq
      · left
        rw [heq]
      · right
        rw [heq]
        dsimp only
        rw [Function.update_eq_self]
    · right
      rw [insertAt, if_neg hcond, if_neg (by simp)]

theorem critnib_set_false_cases (t : CNode) (key : Key) (v : Nat) :
    critnib_set t key v true false = critnib_set t key v true true ∨
    critnib_set t key v true false = (ENOMEM, t) := by
  by_cases he : isEmpty t
  · left
    rw [critnib_set, if_neg (by simp), if_pos he,
      critnib_set, if_neg (by simp), if_pos he]
  · rw [critnib_set, if_neg (by simp), if_neg he,
      critnib_set, if_neg (by simp), if_neg he]
    cases hf : findLeaf key t with
    | empty => exact Or.inl rfl
    | node a b c => exact Or.inl rfl
    | leaf nk nv =>
      dsimp only
      by_cases hd : min nk.length key.length ≤ firstDiff nk key
      · rw [if_pos hd, if_pos hd]
        exact Or.inl rfl
      · rw [if_neg hd, if_neg hd]
        exact insertAt_false_cases key v _ _ _ t

/-- `critnib_set` preserves well-formedness for every allocation outcome,
provided the new key diverges within the common length from every stored
key it does not equal (the length-prefixing contract). -/
theorem critnib_set_WF (t : CNode) (hw : WFb t = true) (key : Key) (v : Nat)
    (leafOk nodeOk : Bool) (hkb : ∀ c ∈ key, c < 256)
    (hcompat : ∀ k' v', (k', v') ∈ leaves t →
      k' = key ∨ firstDiff k' key < min k'.length key.length) :
    WFb (critnib_set t key v leafOk nodeOk).2 = true := by
  cases leafOk with
  | false => rw [critnib_set, if_pos rfl]; exact hw
  | true =>
    by_cases hpresent : ∃ v0, (key, v0) ∈ leaves t
    · obtain ⟨v0, hv0⟩ := hpresent
      rw [critnib_set_exist hw hv0 v nodeOk]
      exact hw
    · have hcompat' : ∀ k' v', (k', v') ∈ leaves t →
          firstDiff k' key < min k'.length key.length := by
        intro k' v' hm
        rcases hcompat k' v' hm with rfl | h
        · exact absurd ⟨v', hm⟩ hpresent
        · exact h
      cases nodeOk with
      | true => exact (critnib_set_insert hw v hkb hcompat').2.1
      | false =>
        rcases critnib_set_false_cases t key v with heq | heq
        · rw [heq]
          exact (critnib_set_insert hw v hkb hcompat').2.1
        · rw [heq]
          exact hw

/-! ### Remove correctness -/

theorem key_slot_unique {ch : Fin 16 → CNode} {b bt : Nat}
    (hw : WFb (.node ch b bt) = true) {k : Key} {v : Nat} {j : Fin 16}
    (hj : (k, v) ∈ leaves (ch j)) {v' : Nat} {j' : Fin 16}
    (hj' : (k, v') ∈ leaves (ch j')) : j = j' := by
  obtain ⟨_, _, _, h4, _⟩ := WFb_node_iff.mp hw
  have e1 := (h4 j (k, v) hj).2
  have e2 := (h4 j' (k, v') hj').2
  exact Fin.ext (by rw [← e1, ← e2])

theorem mem_slot_eq {ch : Fin 16 → CNode} {b bt : Nat}
    (hw : WFb (.node ch b bt) = true) {key : Key} {v : Nat}
    (hmem : (key, v) ∈ leaves (.node ch b bt)) :
    (key, v) ∈ leaves (ch (sliceFin (key.getD b 0) bt)) := by
  obtain ⟨ht04, _, _, h4, _⟩ := WFb_node_iff.mp hw
  obtain ⟨j, hj⟩ := mem_leaves_node.mp hmem
  have hfin : sliceFin (key.getD b 0) bt = j := by
    apply Fin.ext
    show sliceIndex (key.getD b 0) bt = j.val
    rw [sliceIndex_eq_nibAt (WF_bytes hw hmem) ht04, (h4 j (key, v) hj).2]
  rw [hfin]
  exact hj

theorem critnib_remove_ne_empty {mch : Fin 16 → CNode} {mb mt : Nat}
    {key : Key} :
    isEmpty (critnib_remove (.node mch mb mt) key).2 = false := by
  rw [critnib_remove]
  by_cases hlb : key.length ≤ mb
  · rw [if_pos hlb]; rfl
  · rw [if_neg hlb]
    dsimp only
    cases hchi : mch (sliceFin (key.getD mb 0) mt) with
    | empty => rfl
    | node _ _ _ => rfl
    | leaf k v =>
      dsimp only
      by_cases hk : key = k
      · rw [if_pos hk]
        cases hlc : liveChildren (Function.update mch
            (sliceFin (key.getD mb 0) mt) CNode.empty) with
        | nil => rfl
        | cons c' rest =>
          cases rest with
          | nil =>
            have hc' : c' ∈ liveChildren (Function.update mch
                (sliceFin (key.getD mb 0) mt) CNode.empty) := by
              rw [hlc]; exact List.mem_singleton_self c'
            obtain ⟨j0, hj0, hj0e⟩ := mem_liveChildren.mp hc'
            dsimp only
            rw [← hj0e]
            exact hj0
          | cons c2 rest2 => rfl
      · rw [if_neg hk]; rfl

theorem critnib_remove_main : ∀ (t : CNode), WFb t = true → ∀ (key : Key),
    WFb (critnib_remove t key).2 = true ∧
    ((critnib_remove t key).1 = none → (critnib_remove t key).2 = t) ∧
    (∀ v : Nat, (critnib_remove t key).1 = some v ↔ (key, v) ∈ leaves t) ∧
    ((critnib_remove t key).1 ≠ none →
      ∀ p : Key × Nat, p ∈ leaves (critnib_remove t key).2 ↔
        p ∈ leaves t ∧ p.1 ≠ key) := by
  intro t
  induction t with
  | empty =>
    intro _ key
    refine ⟨rfl, fun _ => rfl, fun v => ?_, fun h => absurd rfl h⟩
    simp [critnib_remove, leaves]
  | leaf k0 v0 =>
    intro hw key
    rw [critnib_remove]
    by_cases hk : key = k0
    · subst hk
      rw [if_pos rfl]
      refine ⟨rfl, fun h => Option.noConfusion h, fun v => ?_, fun _ p => ?_⟩
      · simp [leaves, eq_comm]
      · simp only [leaves, List.not_mem_nil, false_iff, List.mem_singleton]
        rintro ⟨rfl, h2⟩
        exact h2 rfl
    · rw [if_neg hk]
      refine ⟨hw, fun _ => rfl, fun v => ?_, fun h => absurd rfl h⟩
      simp only [leaves, List.mem_singleton, Prod.mk.injEq]
      constructor
      · intro h; cases h
      · rintro ⟨rfl, rfl⟩; exact absurd rfl hk
  | node ch b bt ih =>
    intro hw key
    obtain ⟨ht04, h2, h3, h4, h5⟩ := WFb_node_iff.mp hw
    rw [critnib_remove]
    by_cases hlb : key.length ≤ b
    · rw [if_pos hlb]
      refine ⟨hw, fun _ => rfl, fun v => ?_, fun h => absurd rfl h⟩
      constructor
      · intro h; cases h
      · intro hmem
        obtain ⟨j, hj⟩ := mem_leaves_node.mp hmem
        have h6 : posOf b bt < (nibs key).length := (h4 j (key, v) hj).1
        rw [nibs_length] at h6
        have h7 := (posOf_le_iff (b := b) ht04).1
        omega
    · rw [if_neg hlb]
      dsimp only
      cases hchi : ch (sliceFin (key.getD b 0) bt) with
      | empty =>
        refine ⟨hw, fun _ => rfl, fun v => ?_, fun h => absurd rfl h⟩
        constructor
        · intro h; cases h
        · intro hmem
          have := mem_slot_eq hw hmem
          rw [hchi] at this
          simp [leaves] at this
      | leaf kl vl =>
        dsimp only
        by_cases hk : key = kl
        · subst hk
          rw [if_pos rfl]
          have hmemk : (key, vl) ∈ leaves (.node ch b bt) :=
            mem_leaves_node.mpr ⟨_, by rw [hchi]; simp [leaves]⟩
          have hsome_iff : ∀ v : Nat, some vl = some v ↔
              (key, v) ∈ leaves (.node ch b bt) := by
            intro v
            constructor
            · intro h
              injection h with h
              subst h
              exact hmemk
            · intro hmem
              have hsl := mem_slot_eq hw hmem
              rw [hchi] at hsl
              simp only [leaves, List.mem_singleton, Prod.mk.injEq] at hsl
              rw [hsl.2]
          have hneq_key : ∀ (j : Fin 16) (p : Key × Nat),
              j ≠ sliceFin (key.getD b 0) bt → p ∈ leaves (ch j) →
              p.1 ≠ key := by
            intro j p hji hp hpk
            have hkey_i : (key, vl) ∈ leaves (ch (sliceFin (key.getD b 0) bt)) := by
              rw [hchi]; simp [leaves]
            have hp' : (key, p.2) ∈ leaves (ch j) := by
              rw [← hpk]
              exact hp
            exact hji (key_slot_unique hw hp' hkey_i)
          cases hlc : liveChildren (Function.update ch
              (sliceFin (key.getD b 0) bt) CNode.empty) with
          | nil =>
            exfalso
            obtain ⟨i1, i2, hi12, hl1, hl2⟩ := (two_le_liveChildren_iff ch).mp h2
            have hlive : ∃ j, j ≠ sliceFin (key.getD b 0) bt ∧
                isEmpty (ch j) = false := by
              by_cases hc1 : i1 = sliceFin (key.getD b 0) bt
              · exact ⟨i2, by rw [← hc1]; exact fun h => hi12 h.symm, hl2⟩
              · exact ⟨i1, hc1, hl1⟩
            obtain ⟨j, hji, hjl⟩ := hlive
            have : ch j ∈ liveChildren (Function.update ch
                (sliceFin (key.getD b 0) bt) CNode.empty) := by
              apply mem_liveChildren.mpr
              exact ⟨j, by rw [Function.update_noteq hji]; exact hjl,
                by rw [Function.update_noteq hji]⟩
            rw [hlc] at this
            exact absurd this (List.not_mem_nil _)
          | cons c' rest =>
            cases rest with
            | nil =>
              dsimp only
              obtain ⟨j0, hj0l, hj0e, hj0others⟩ := liveChildren_singleton hlc
              have hj0i : j0 ≠ sliceFin (key.getD b 0) bt := by
                intro hc
                rw [hc, Function.update_same] at hj0l
                simp [isEmpty] at hj0l
              rw [Function.update_noteq hj0i] at hj0e
              refine ⟨by rw [← hj0e]; exact h3 j0, fun h => Option.noConfusion h,
                hsome_iff, fun _ p => ?_⟩
              constructor
              · intro hp
                rw [← hj0e] at hp
                exact ⟨mem_leaves_node.mpr ⟨j0, hp⟩,
                  hneq_key j0 p hj0i hp⟩
              · rintro ⟨hpmem, hpk⟩
                obtain ⟨j', hj'⟩ := mem_leaves_node.mp hpmem
                have hj'i : j' ≠ sliceFin (key.getD b 0) bt := by
                  intro hc
                  rw [hc, hchi] at hj'
                  simp only [leaves, List.mem_singleton] at hj'
                  exact hpk (by rw [hj'])
                have hj'j0 : j' = j0 := by
                  by_contra hne
                  have := hj0others j' hne
                  rw [Function.update_noteq hj'i] at this
                  rw [leaves_empty_of_isEmpty this] at hj'
                  exact absurd hj' (List.not_mem_nil p)
                rw [← hj0e, ← hj'j0]
                exact hj'
            | cons c2 rest2 =>
              dsimp only
              refine ⟨?_, fun h => Option.noConfusion h, hsome_iff, fun _ p => ?_⟩
              · rw [WFb_node_iff]
                refine ⟨ht04, ?_, ?_, ?_, ?_⟩
                · rw [hlc]; simp
                · intro i
                  by_cases hci : i = sliceFin (key.getD b 0) bt
                  · subst hci; rw [Function.update_same]; rfl
                  · rw [Function.update_noteq hci]; exact h3 i
                · intro i q hq
                  by_cases hci : i = sliceFin (key.getD b 0) bt
                  · subst hci
                    rw [Function.update_same] at hq
                    simp [leaves] at hq
                  · rw [Function.update_noteq hci] at hq
                    exact h4 i q hq
                · intro q1 hq1 q2 hq2
                  have hsub : ∀ q : Key × Nat,
                      q ∈ leaves (.node (Function.update ch
                        (sliceFin (key.getD b 0) bt) CNode.empty) b bt) →
                      q ∈ leaves (.node ch b bt) := by
                    intro q hq
                    rw [mem_leaves_update] at hq
                    rcases hq with hq | ⟨j, hji, hq⟩
                    · simp [leaves] at hq
                    · exact mem_leaves_node.mpr ⟨j, hq⟩
                  exact h5 q1 (hsub q1 hq1) q2 (hsub q2 hq2)
              · rw [mem_leaves_update]
                constructor
                · rintro (hp | ⟨j, hji, hp⟩)
                  · simp [leaves] at hp
                  · exact ⟨mem_leaves_node.mpr ⟨j, hp⟩, hneq_key j p hji hp⟩
                · rintro ⟨hpmem, hpk⟩
                  obtain ⟨j', hj'⟩ := mem_leaves_node.mp hpmem
                  have hj'i : j' ≠ sliceFin (key.getD b 0) bt := by
                    intro hc
                    rw [hc, hchi] at hj'
                    simp only [leaves, List.mem_singleton] at hj'
                    exact hpk (by rw [hj'])
                  exact Or.inr ⟨j', hj'i, hj'⟩
        · rw [if_neg hk]
          refine ⟨hw, fun _ => rfl, fun v => ?_, fun h => absurd rfl h⟩
          constructor
          · intro h; cases h
          · intro hmem
            have hsl := mem_slot_eq hw hmem
            rw [hchi] at hsl
            simp only [leaves, List.mem_singleton, Prod.mk.injEq] at hsl
            exact absurd hsl.1 hk
      | node mch mb mt =>
        obtain ⟨ihWF, ihnone, ihsome, ihchar⟩ :=
          ih (sliceFin (key.getD b 0) bt) (h3 _) key
        rw [hchi] at ihWF ihnone ihsome ihchar
        dsimp only
        have hresne : isEmpty (critnib_remove (.node mch mb mt) key).2 = false :=
          critnib_remove_ne_empty
        constructor
        · -- well-formedness of the rebuilt node
          cases hres : (critnib_remove (.node mch mb mt) key).1 with
          | none =>
            have := ihnone hres
            rw [this, ← hchi, Function.update_eq_self]
            exact hw
          | some v1 =>
            rw [WFb_node_iff]
            refine ⟨ht04, ?_, ?_, ?_, ?_⟩
            · obtain ⟨i1, i2, hi12, hl1, hl2⟩ := (two_le_liveChildren_iff ch).mp h2
              rw [two_le_liveChildren_iff]
              refine ⟨i1, i2, hi12, ?_, ?_⟩
              · by_cases hc1 : i1 = sliceFin (key.getD b 0) bt
                · subst hc1; rw [Function.update_same]; exact hresne
                · rw [Function.update_noteq hc1]; exact hl1
              · by_cases hc2 : i2 = sliceFin (key.getD b 0) bt
                · subst hc2; rw [Function.update_same]; exact hresne
                · rw [Function.update_noteq hc2]; exact hl2
            · intro i
              by_cases hci : i = sliceFin (key.getD b 0) bt
              · subst hci; rw [Function.update_same]; exact ihWF
              · rw [Function.update_noteq hci]; exact h3 i
            · intro i q hq
              by_cases hci : i = sliceFin (key.getD b 0) bt
              · subst hci
                rw [Function.update_same] at hq
                have := (ihchar (by rw [hres]; exact fun h => by cases h) q).mp hq
                rw [← hchi] at this
                exact h4 _ q this.1
              · rw [Function.update_noteq hci] at hq
                exact h4 i q hq
            · intro q1 hq1 q2 hq2
              have hsub : ∀ q : Key × Nat,
                  q ∈ leaves (.node (Function.update ch
                    (sliceFin (key.getD b 0) bt)
                    (critnib_remove (.node mch mb mt) key).2) b bt) →
                  q ∈ leaves (.node ch b bt) := by
                intro q hq
                rw [mem_leaves_update] at hq
                rcases hq with hq | ⟨j, hji, hq⟩
                · have := (ihchar (by rw [hres]; exact fun h => by cases h) q).mp hq
                  rw [← hchi] at this
                  exact mem_leaves_node.mpr ⟨_, this.1⟩
                · exact mem_leaves_node.mpr ⟨j, hq⟩
              exact h5 q1 (hsub q1 hq1) q2 (hsub q2 hq2)
        constructor
        · intro hres
          rw [ihnone hres, ← hchi, Function.update_eq_self]
        constructor
        · intro v
          rw [ihsome v]
          constructor
          · intro hm
            rw [← hchi] at hm
            exact mem_leaves_node.mpr ⟨_, hm⟩
          · intro hmem
            have := mem_slot_eq hw hmem
            rw [hchi] at this
            exact this
        · intro hres p
          have hv1 : ∃ v1, (critnib_remove (.node mch mb mt) key).1 = some v1 := by
            cases hres2 : (critnib_remove (.node mch mb mt) key).1 with
            | none => exact absurd hres2 hres
            | some v1 => exact ⟨v1, rfl⟩
          obtain ⟨v1, hres1⟩ := hv1
          have hkeymem : (key, v1) ∈ leaves (.node mch mb mt) :=
            (ihsome v1).mp hres1
          rw [mem_leaves_update]
          constructor
          · rintro (hp | ⟨j, hji, hp⟩)
            · have := (ihchar hres p).mp hp
              rw [← hchi] at this
              exact ⟨mem_leaves_node.mpr ⟨_, this.1⟩, this.2⟩
            · refine ⟨mem_leaves_node.mpr ⟨j, hp⟩, ?_⟩
              intro hpk
              have hkey_i : (key, v1) ∈
                  leaves (ch (sliceFin (key.getD b 0) bt)) := by
                rw [hchi]; exact hkeymem
              have hp' : (key, p.2) ∈ leaves (ch j) := by
                rw [← hpk]
                exact hp
              exact hji (key_slot_unique hw hp' hkey_i)
          · rintro ⟨hpmem, hpk⟩
            obtain ⟨j', hj'⟩ := mem_leaves_node.mp hpmem
            by_cases hj'i : j' = sliceFin (key.getD b 0) bt
            · subst hj'i
              left
              apply (ihchar hres p).mpr
              rw [hchi] at hj'
              exact ⟨hj', hpk⟩
            · exact Or.inr ⟨j', hj'i, hj'⟩

theorem critnib_get_sound {t : CNode} {key : Key} {v : Nat}
    (h : critnib_get t key = some v) : (key, v) ∈ leaves t := by
  induction t with
  | empty => simp [critnib_get] at h
  | leaf k0 v0 =>
    rw [critnib_get] at h
    by_cases hk : key = k0
    · rw [if_pos hk] at h
      injection h with h'
      simp [leaves, hk, h']
    · rw [if_neg hk] at h; cases h
  | node ch b bt ih =>
    rw [critnib_get] at h
    by_cases hl : key.length ≤ b
    · rw [if_pos hl] at h; cases h
    · rw [if_neg hl] at h
      exact mem_leaves_node.mpr ⟨_, ih _ h⟩

theorem critnib_get_complete {t : CNode} (hw : WFb t = true) {key : Key}
    {v : Nat} (hk : (key, v) ∈ leaves t) : critnib_get t key = some v := by
  induction t with
  | empty => simp [leaves] at hk
  | leaf k0 v0 =>
    simp only [leaves, List.mem_singleton, Prod.mk.injEq] at hk
    obtain ⟨rfl, rfl⟩ := hk
    simp [critnib_get]
  | node ch b bt ih =>
    obtain ⟨ht04, _, h3, h4, _⟩ := WFb_node_iff.mp hw
    obtain ⟨j, hj⟩ := mem_leaves_node.mp hk
    obtain ⟨hlen, hnib⟩ := h4 j (key, v) hj
    rw [nibs_length] at hlen
    have hb : b < key.length := by
      unfold posOf at hlen
      rcases ht04 with rfl | rfl | rfl <;> simp at hlen <;> omega
    rw [critnib_get, if_neg (by omega)]
    have hbytes : ∀ c ∈ key, c < 256 := WF_bytes hw hk
    have hfin : sliceFin (key.getD b 0) bt = j := by
      apply Fin.ext
      show sliceIndex (key.getD b 0) bt = j.val
      rw [sliceIndex_eq_nibAt hbytes ht04, hnib]
    rw [hfin]
    exact ih j (h3 j) hj

/-- On the no-node-allocation run, `critnib_set` either succeeds without
having needed the internal node, or reports `ENOMEM`. -/
theorem critnib_set_nomem_unchanged (t : CNode) (key : Key) (v : Nat)
    (h : (critnib_set t key v true false).1 = ENOMEM) :
    (critnib_set t key v true false).2 = t := by
  rw [critnib_set] at h ⊢
  simp only [Bool.true_eq_false, if_false] at h ⊢
  by_cases he : isEmpty t = true
  · rw [if_pos he] at h; simp [ENOMEM] at h
  · rw [if_neg he] at h ⊢
    cases hf : findLeaf key t with
    | empty => rfl
    | node a b c => rfl
    | leaf nk nv =>
      rw [hf] at h
      dsimp only at h ⊢
      by_cases hd : min nk.length key.length ≤ firstDiff nk key
      · rw [if_pos hd]
      · rw [if_neg hd] at h ⊢
        exact insertAt_nomem _ _ _ _ _ _ h

end Critnib

/-! ### Length-prefixed keys and insertion sequences -/

namespace Critnib

end Critnib

namespace Repl

theorem clearStep_used_ne (h : Head) (i j : Nat) (hij : j ≠ i) :
    (clearStep h i).used j = h.used j := by
  unfold clearStep
  cases h.used i with
  | none => rfl
  | some id => simp [Function.update_noteq hij]

theorem foldl_clearStep_first (is : List Nat) (h : Head) (hnd : is.Nodup) :
    (is.foldl clearStep h).first =
      (is.filterMap h.used).foldl moveToTail h.first := by
  induction is generalizing h with
  | nil => rfl
  | cons i rest ih =>
    rw [List.foldl_cons, List.filterMap_cons]
    have hrest : rest.Nodup := (List.nodup_cons.mp hnd).2
    have hne : ∀ j ∈ rest, (clearStep h i).used j = h.used j := by
      intro j hj
      exact clearStep_used_ne h i j (fun hji => (List.nodup_cons.mp hnd).1 (hji ▸ hj))
    cases hu : h.used i with
    | none =>
      have hstep : clearStep h i = h := by unfold clearStep; rw [hu]
      rw [hstep]
      exact ih h hrest
    | some id =>
      have h1 : (clearStep h i).first = moveToTail h.first id := by
        unfold clearStep; rw [hu]
      have h2 : rest.filterMap (clearStep h i).used = rest.filterMap h.used :=
        List.filterMap_congr hne
      rw [ih (clearStep h i) hrest, h1, h2, List.foldl_cons]

theorem foldl_moveToTail_eq (T : List Nat) :
    ∀ L : List Nat, L.Nodup → T.Nodup → (∀ x ∈ T, x ∈ L) →
      T.foldl moveToTail L = L.filter (fun x => decide (x ∉ T)) ++ T := by
  induction T with
  | nil => intro L _ _ _; simp
  | cons t T' ih =>
    intro L hL hT hsub
    rw [List.foldl_cons]
    have ht' : t ∉ T' := (List.nodup_cons.mp hT).1
    have hT' : T'.Nodup := (List.nodup_cons.mp hT).2
    have hLt : (moveToTail L t).Nodup := by
      unfold moveToTail
      refine List.Nodup.append (hL.erase t) (List.nodup_singleton t) ?_
      intro a ha hb
      rw [List.mem_singleton] at hb
      subst hb
      exact hL.not_mem_erase ha
    have hsub' : ∀ x ∈ T', x ∈ moveToTail L t := by
      intro x hx
      unfold moveToTail
      rcases eq_or_ne x t with rfl | hne
      · exact List.mem_append_right _ (List.mem_singleton_self x)
      · refine List.mem_append_left _ ?_
        exact (List.mem_erase_of_ne hne).mpr (hsub x (List.mem_cons_of_mem t hx))
    rw [ih (moveToTail L t) hLt hT' hsub']
    unfold moveToTail
    rw [List.filter_append]
    have hft : List.filter (fun x => decide (x ∉ T')) [t] = [t] := by
      simp [ht']
    rw [hft]
    rw [hL.erase_eq_filter t, List.filter_filter]
    have hpred : List.filter (fun a => decide (a ∉ T') && (a != t)) L =
        List.filter (fun a => decide (a ∉ t :: T')) L := by
      refine List.filter_congr ?_
      intro a _
      by_cases hat : a = t
      · subst hat; simp
      · by_cases haT : a ∈ T' <;> simp [hat, haT]
    rw [hpred, List.append_assoc]
    rfl

theorem drain_first_characterization (h : Head) (h1 : h.first.Nodup)
    (h2 : (touchedIds h).Nodup) (h3 : ∀ x ∈ touchedIds h, x ∈ h.first) :
    (clear_used_array h).first =
      h.first.filter (fun x => decide (x ∉ touchedIds h)) ++ touchedIds h := by
  show ((List.range (min h.n_used h.max_used)).foldl clearStep h).first = _
  rw [foldl_clearStep_first _ _ (List.nodup_range _)]
  exact foldl_moveToTail_eq _ h.first h1 h2 h3

theorem drain_ranks (h : Head) (h1 : h.first.Nodup)
    (h2 : (touchedIds h).Nodup) (h3 : ∀ x ∈ touchedIds h, x ∈ h.first)
    (x : Nat) (hx : x ∈ h.first) (hxT : x ∉ touchedIds h)
    (e : Nat) (he : e ∈ touchedIds h) :
    (clear_used_array h).first.indexOf x <
      (clear_used_array h).first.indexOf e := by
  rw [drain_first_characterization h h1 h2 h3]
  have hxF : x ∈ h.first.filter (fun y => decide (y ∉ touchedIds h)) :=
    List.mem_filter.mpr ⟨hx, by simpa using hxT⟩
  have heF : e ∉ h.first.filter (fun y => decide (y ∉ touchedIds h)) := by
    intro hc
    have := (List.mem_filter.mp hc).2
    simp only [decide_eq_true_eq] at this
    exact this he
  rw [List.indexOf_append_of_mem hxF, List.indexOf_append_of_not_mem heF]
  calc List.indexOf x (h.first.filter (fun y => decide (y ∉ touchedIds h)))
      < (h.first.filter (fun y => decide (y ∉ touchedIds h))).length :=
        List.indexOf_lt_length.mpr hxF
    _ ≤ _ := Nat.le_add_right _ _

end Repl

/-! ## Claim theorems -/

open Critnib Repl Lock

/-- C7: if the internal-node allocation during an insert's node split
fails, insert returns out-of-memory (ENOMEM) and the trie is in exactly
the state it had before the insert began (the leaf allocated for the new
key is freed; it was never linked). -/
theorem insert_split_alloc_failure_unchanged (t : CNode) (key : Key) (v : Nat)
    (h : (critnib_set t key v true false).1 = ENOMEM) :
    (critnib_set t key v true false).2 = t :=
  critnib_set_nomem_unchanged t key v h

/-- Witness for C7: a concrete split whose node allocation fails. -/
theorem insert_split_alloc_failure_unchanged_witness :
    (critnib_set (.leaf [18] 1) [19] 2 true false).1 = ENOMEM ∧
    (critnib_set (.leaf [18] 1) [19] 2 true false).2 = .leaf [18] 1 :=
  ⟨by decide, insert_split_alloc_failure_unchanged (.leaf [18] 1) [19] 2 (by decide)⟩

/-- C8: `repl_p_lru_use` (touch) on a back-pointer slot that currently
holds NULL (because the node it pointed to was evicted) is a no-op: it
returns without modifying the list, the touched buffer, or any
counter. -/
theorem touch_on_null_slot_noop (h : Repl.Head) (s : Nat)
    (hs : h.slots s = none) : repl_p_lru_use h s = h := by
  rw [repl_p_lru_use, hs]

/-- Witness for C8: touching a never-attached slot of a fresh policy. -/
theorem touch_on_null_slot_noop_witness :
    repl_p_lru_new.slots 5 = none ∧
    repl_p_lru_use repl_p_lru_new 5 = repl_p_lru_new :=
  ⟨rfl, touch_on_null_slot_noop repl_p_lru_new 5 rfl⟩

/-- C10: a targeted evict whose supplied back-pointer slot currently
holds NULL returns NULL and leaves the whole policy state (list, touched
buffer, `n_used`) unchanged. -/
theorem targeted_evict_null_slot_noop (h : Repl.Head) (s : Nat)
    (hs : h.slots s = none) : repl_p_lru_evict h (some s) = (h, none) := by
  rw [repl_p_lru_evict, hs]

/-- Witness for C10: targeted evict on a never-attached slot. -/
theorem targeted_evict_null_slot_noop_witness :
    repl_p_lru_new.slots 7 = none ∧
    repl_p_lru_evict repl_p_lru_new (some 7) = (repl_p_lru_new, none) :=
  ⟨rfl, targeted_evict_null_slot_noop repl_p_lru_new 7 rfl⟩

/-- C2: after a drain, the list is exactly the untouched nodes in their
previous (attach) order followed by the touched nodes, so every node
touched since the previous drain ranks more recent (larger index, the
head at index 0 being evicted first) than every untouched node; and
never-touched nodes are evicted by `evict(null)` in attach order: after
attaching A, B, C with no touches, four evictions yield A, B, C, null. -/
theorem lru_drain_ordering :
    (∀ h : Head, h.first.Nodup → (touchedIds h).Nodup →
      (∀ x ∈ touchedIds h, x ∈ h.first) →
      (clear_used_array h).first =
        h.first.filter (fun x => decide (x ∉ touchedIds h)) ++ touchedIds h) ∧
    (∀ h : Head, h.first.Nodup → (touchedIds h).Nodup →
      (∀ x ∈ touchedIds h, x ∈ h.first) →
      ∀ x ∈ h.first, x ∉ touchedIds h → ∀ e ∈ touchedIds h,
        (clear_used_array h).first.indexOf x <
          (clear_used_array h).first.indexOf e) ∧
    (evict1.2 = some 100 ∧ evict2.2 = some 101 ∧
     evict3.2 = some 102 ∧ evict4.2 = none) :=
  ⟨drain_first_characterization,
   fun h h1 h2 h3 x hx hxT e he => drain_ranks h h1 h2 h3 x hx hxT e he,
   by decide, by decide, by decide, by decide⟩

/-- Witness for C2: two attached nodes (ids 0 and 1), node 1 touched;
after the drain the untouched node 0 still ranks older than node 1. -/
theorem lru_drain_ordering_witness :
    (clear_used_array scenarioTouch).first.indexOf 0 <
      (clear_used_array scenarioTouch).first.indexOf 1 :=
  lru_drain_ordering.2.1 scenarioTouch (by decide) (by decide) (by decide)
    0 (by decide) (by decide) 1 (by decide)

/-- C3 (corrected): the claim says the discriminating bit offset computed
during an insert is always 0 or 4.  In the source the differing bytes are
XORed as (signed) `char` and the result is cast with `(uint32_t)`, which
sign-extends it when the bytes differ at the byte's top bit; then
`util_mssb_index` returns 31 and the masked offset is 28.  The corrected
statement: the offset is 0 or 4 exactly when the two bytes agree at the
top bit, and 28 when they differ there; accordingly every internal node
of a well-formed trie has a `bit` field that is 0, 4 or 28. -/
theorem divergence_bit_offset_0_4_or_28 :
    (∀ x y : Nat, x < 256 → y < 256 → x ≠ y →
      ((x < 128 ↔ y < 128) →
        util_mssb_index (sx32 (x ^^^ y)) &&& 252 = 0 ∨
        util_mssb_index (sx32 (x ^^^ y)) &&& 252 = 4) ∧
      (¬ (x < 128 ↔ y < 128) →
        util_mssb_index (sx32 (x ^^^ y)) &&& 252 = 28)) ∧
    (∀ t : CNode, WFb t = true → bits0428 t = true) := by
  refine ⟨fun x y hx hy hxy => ?_, bits0428_of_WFb⟩
  obtain ⟨h0428, _, hsign, _⟩ := sh_facts x y hx hy hxy
  constructor
  · intro hiff
    have hne28 := hsign.mpr hiff
    rcases h0428 with h | h | h
    · exact Or.inl h
    · exact Or.inr h
    · exact absurd h hne28
  · intro hniff
    rcases h0428 with h | h | h
    · exact absurd (hsign.mp (by rw [h]; norm_num)) hniff
    · exact absurd (hsign.mp (by rw [h]; norm_num)) hniff
    · exact h

/-- Witness for C3: bytes 0x34 and 0x35 agree at the top bit (offset 0);
bytes 0x00 and 0x80 differ at the top bit (offset 28); the concrete
sign-discriminator trie satisfies the corrected node invariant. -/
theorem divergence_bit_offset_0_4_or_28_witness :
    (util_mssb_index (sx32 (52 ^^^ 53)) &&& 252 = 0 ∨
     util_mssb_index (sx32 (52 ^^^ 53)) &&& 252 = 4) ∧
    util_mssb_index (sx32 (0 ^^^ 128)) &&& 252 = 28 ∧
    bits0428 sampleTrie28 = true :=
  ⟨(divergence_bit_offset_0_4_or_28.1 52 53 (by decide) (by decide)
      (by decide)).1 (by decide),
   (divergence_bit_offset_0_4_or_28.1 0 128 (by decide) (by decide)
      (by decide)).2 (by decide),
   divergence_bit_offset_0_4_or_28.2 sampleTrie28 (by decide)⟩

/-- Counterexample for C3 as claimed: for the bytes 0x00 and 0x80 the
computed offset is 28, not 0 or 4, and inserting the keys 0x00 and 0x80
into an empty index succeeds and stores an internal node whose `bit`
field is 28 — the claimed bit-field invariant `bits04` fails on a
reachable trie. -/
theorem divergence_bit_offset_spec_counterexample :
    util_mssb_index (sx32 (0 ^^^ 128)) &&& 252 = 28 ∧
    ¬ (util_mssb_index (sx32 (0 ^^^ 128)) &&& 252 = 0 ∨
       util_mssb_index (sx32 (0 ^^^ 128)) &&& 252 = 4) ∧
    (critnib_set (critnib_set .empty [0] 1 true true).2 [128] 2 true true).1 = 0 ∧
    bits04 trie28 = false ∧
    WFb trie28 = true := by
  refine ⟨by decide, by decide, by decide, by decide, by decide⟩

/-- C4: for every well-formed trie and every key already present (a leaf
with byte-identical key bytes exists), insert of that key returns
already-present (EEXIST) and leaves the trie — its structure and the
stored value for that key — unchanged. -/
theorem insert_existing_key_eexist (t : CNode) (hw : WFb t = true)
    (key : Key) (v0 : Nat) (hmem : (key, v0) ∈ leaves t) (v : Nat) :
    critnib_set t key v true true = (EEXIST, t) :=
  critnib_set_exist hw hmem v true

/-- Witness for C4: re-inserting the stored key 0x80 into the concrete
sign-discriminator (`bit = 28`) trie. -/
theorem insert_existing_key_eexist_witness :
    critnib_set sampleTrie28 [128] 9 true true = (EEXIST, sampleTrie28) :=
  insert_existing_key_eexist sampleTrie28 (by decide) [128] 2 (by decide) 9

/-- C5: for every well-formed trie containing key `k`, `remove k` returns
the value stored with `k` (without freeing it); afterwards lookup of `k`
returns null and lookup of every other key returns the same value as
before the remove. -/
theorem remove_then_lookups (t : CNode) (hw : WFb t = true)
    (key : Key) (v : Nat) (hmem : (key, v) ∈ leaves t) :
    (critnib_remove t key).1 = some v ∧
    critnib_get (critnib_remove t key).2 key = none ∧
    ∀ k' : Key, k' ≠ key →
      critnib_get (critnib_remove t key).2 k' = critnib_get t k' := by
  obtain ⟨hWF, _, hsome, hchar⟩ := critnib_remove_main t hw key
  have h1 : (critnib_remove t key).1 = some v := (hsome v).mpr hmem
  have hne : (critnib_remove t key).1 ≠ none := by
    rw [h1]; exact fun h => Option.noConfusion h
  refine ⟨h1, ?_, ?_⟩
  · cases hg : critnib_get (critnib_remove t key).2 key with
    | none => rfl
    | some u =>
      have hm := critnib_get_sound hg
      have hc := (hchar hne _).mp hm
      exact absurd rfl hc.2
  · intro k' hk'
    cases hg : critnib_get t k' with
    | some u =>
      have hm := critnib_get_sound hg
      have hm' : (k', u) ∈ leaves (critnib_remove t key).2 :=
        (hchar hne _).mpr ⟨hm, hk'⟩
      exact critnib_get_complete hWF hm'
    | none =>
      cases hg2 : critnib_get (critnib_remove t key).2 k' with
      | none => rfl
      | some u =>
        have hm := critnib_get_sound hg2
        have hmt := ((hchar hne _).mp hm).1
        have := critnib_get_complete hw hmt
        rw [hg] at this
        cases this

/-- Witness for C5: removing key 0x00 from the sign-discriminator trie
returns its value, edge-shortens, and leaves key 0x80 readable. -/
theorem remove_then_lookups_witness :
    (critnib_remove sampleTrie28 [0]).1 = some 1 ∧
    critnib_get (critnib_remove sampleTrie28 [0]).2 [0] = none ∧
    critnib_get (critnib_remove sampleTrie28 [0]).2 [128] =
      critnib_get sampleTrie28 [128] :=
  ⟨(remove_then_lookups sampleTrie28 (by decide) [0] 1 (by decide)).1,
   (remove_then_lookups sampleTrie28 (by decide) [0] 1 (by decide)).2.1,
   (remove_then_lookups sampleTrie28 (by decide) [0] 1 (by decide)).2.2
     [128] (by decide)⟩

/-- C6: after every completed index operation (insert with any allocation
outcome, lookup — which does not change the trie — or remove) on a trie
in which the invariant held before, every internal node reachable from
the root has at least two non-empty child slots.  Insert carries the
length-prefixing contract: the new key equals or diverges within the
common length from every stored key. -/
theorem index_ops_preserve_two_children (t : CNode) (hw : WFb t = true)
    (key : Key) (v : Nat) (leafOk nodeOk : Bool)
    (hkb : ∀ c ∈ key, c < 256)
    (hcompat : ∀ k' v', (k', v') ∈ leaves t →
      k' = key ∨ firstDiff k' key < min k'.length key.length) :
    twoChildren (critnib_set t key v leafOk nodeOk).2 = true ∧
    twoChildren (critnib_remove t key).2 = true :=
  ⟨twoChildren_of_WFb _ (critnib_set_WF t hw key v leafOk nodeOk hkb hcompat),
   twoChildren_of_WFb _ (critnib_remove_main t hw key).1⟩

/-- Witness for C6: inserting the fresh key 0x82 (which diverges from the
stored keys at the byte's top bit, splitting with a `bit = 28` node)
into, and removing the stored key 0x34 from, the two-leaf trie. -/
theorem index_ops_preserve_two_children_witness :
    twoChildren (critnib_set sampleTrie [130] 7 true true).2 = true ∧
    twoChildren (critnib_remove sampleTrie [52]).2 = true :=
  index_ops_preserve_two_children sampleTrie (by decide) [130] 7 true true
    (by decide)
    (by
      intro k' v' hm
      have hl : leaves sampleTrie = [([52], 1), ([53], 2)] := by decide
      rw [hl] at hm
      simp only [List.mem_cons, List.mem_singleton, Prod.mk.injEq,
        List.not_mem_nil, or_false] at hm
      rcases hm with ⟨rfl, -⟩ | ⟨rfl, -⟩
      · right; decide
      · right; decide)

/-- C9 (refuted by the code): the claim says every public index
operation acquires the index's mutex at the start and releases it
exactly once before returning.  In the source all three operations call
`os_mutex_unlock` at entry — `os_mutex_lock` never appears on any
control path — so the mutex is never acquired, and every non-error path
performs two unlocks. -/
theorem index_mutex_never_acquired :
    (∀ p, MutexOp.lock ∉ critnib_set_mutexOps p) ∧
    MutexOp.lock ∉ critnib_get_mutexOps ∧
    (∀ p, MutexOp.lock ∉ critnib_remove_mutexOps p) ∧
    critnib_set_mutexOps .rootEmpty = [.unlock, .unlock] := by
  refine ⟨fun p => ?_, by decide, fun p => ?_, rfl⟩ <;> cases p <;> decide

end Vmemcache
